import Mathlib

/-!
Verification model of the memory-management core of Engine2:
the generational slot map (`src/Core/SlotMap.cpp`, `include/Core/Handle.h`)
and the chained virtual-memory arena allocator
(`src/Runtime/Memory/Arena.cpp`, `include/Runtime/Memory/Arena.h`).

Machine integers are modeled as `Nat` with explicit reduction modulo `2^32`
(or `2^64`) exactly where the C code's fixed-width arithmetic can wrap.
Fallible operations return `Except Unit _`: a thrown `()` models a fault
(undefined behavior such as `memset` on a null pointer or an out-of-bounds
`memcpy`), while in-band failure (a null pointer / sentinel result) is part
of the ordinary return value, mirroring the C API.
-/

set_option autoImplicit false

/-- `2^32`, the modulus of `uint32_t` arithmetic. -/
def U32MOD : Nat := 4294967296

/-- `HANDLE_INVALID_ID` / `UINT32_MAX` = `0xFFFFFFFF` (Handle.h). -/
def U32MAX : Nat := 4294967295

/-- `2^24`: one more than `HANDLE_INDEX_MASK = 0x00FFFFFF` (Handle.h). -/
def HANDLE_INDEX_MOD : Nat := 16777216

/-- `2^8`: one more than `HANDLE_GENERATION_MASK = 0xFF` (Handle.h). -/
def HANDLE_GEN_MOD : Nat := 256

/-- `handleMake` (Handle.h): `(index & HANDLE_INDEX_MASK) |
((generation & HANDLE_GENERATION_MASK) << HANDLE_INDEX_BITS)`.
The two masked fields occupy disjoint bit ranges, so the bitwise-or is
the sum `(index mod 2^24) + (generation mod 2^8) * 2^24`. -/
def handleMake (index generation : Nat) : Nat :=
  (index % HANDLE_INDEX_MOD) + (generation % HANDLE_GEN_MOD) * HANDLE_INDEX_MOD

/-- `handleIndex` (Handle.h): `id & HANDLE_INDEX_MASK` = `id mod 2^24`. -/
def handleIndex (id : Nat) : Nat := id % HANDLE_INDEX_MOD

/-- `handleGeneration` (Handle.h): `(id >> 24) & 0xFF` = `(id / 2^24) mod 2^8`. -/
def handleGeneration (id : Nat) : Nat := (id / HANDLE_INDEX_MOD) % HANDLE_GEN_MOD

/-- `handleIsValid` (Handle.h): `id != HANDLE_INVALID_ID`. -/
def handleIsValid (id : Nat) : Bool := id != U32MAX

/-!
## Slot map state (`struct SlotMap`, SlotMap.cpp)

The dense value buffer `pValues` holds `count` live payloads followed by
unread junk; it is modeled by its live prefix `values` (length = `count`),
so the `memcpy` of a new value to dense index `count` is an append and
decrementing `count` drops the last entry.  `pIndices`, `pGenerations`
and `pErase` are `uint32_t` arrays of length `capacity`, modeled as
`List Nat` whose entries are values below `2^32`.  `valueSize` and
`valueAlign` describe the byte layout of one payload and are abstracted
into the element type `V` (the model assumes `valueSize ≥ 1`, which
`slotMapCreate` enforces by rejecting `valueSize == 0`).
-/

structure SlotMap (V : Type) where
  capacity : Nat
  count : Nat
  freeHead : Nat
  values : List V
  indices : List Nat
  generations : List Nat
  erase : List Nat
  deriving Repr, DecidableEq

/-- `slotMapCreate` (SlotMap.cpp), successful path: every sparse index entry
is initialized to `UINT32_MAX` and every generation to 0; `pErase` comes
from the zero-initializing `arenaPushArray`, so its entries start at 0;
`count` is 0 and the free list is empty.  (The null-arena / zero-size /
allocation-failure paths return null and create no slot map; the claims
under verification all concern an existing slot map, so the model covers
the successful path.) -/
def slotMapCreate (V : Type) (initialCapacity : Nat) : SlotMap V :=
  { capacity := initialCapacity
    count := 0
    freeHead := U32MAX
    values := []
    indices := List.replicate initialCapacity U32MAX
    generations := List.replicate initialCapacity 0
    erase := List.replicate initialCapacity 0 }

/-- `slotMapGrow` (SlotMap.cpp).  `o1 o2 o3 o4` say whether the arena has
room for each of the four pushes (new value buffer, new sparse index
array, new generation array, new erase array), in program order.

* `pNewValues` is a raw `arenaPush`: on failure it is simply null.
* The three `uint32_t` arrays use `arenaPushArray`, which passes the
  pushed pointer straight to `memset` with byte count `4 * newCapacity`
  and no null check (Arena.h): a failed inner push therefore faults
  whenever that byte count is nonzero.
* `newCapacity = capacity * 2` is `uint32_t` arithmetic, so it wraps
  modulo `2^32`; if it wraps to 0 every push has size 0 and fails, and
  the grow is abandoned with the map unchanged.  If it wraps to a
  nonzero value below `capacity`, the `memcpy` of `capacity` entries
  into the smaller new array runs past its end: undefined behavior,
  modeled as a fault.
* Only after all four allocations are checked non-null are the contents
  copied forward and the new arrays installed (`indices` entries
  `capacity ≤ i < newCapacity` are set to `UINT32_MAX`, generations
  there to 0; fresh `erase` entries keep their `arenaPushArray`
  zero-fill). -/
def slotMapGrow {V : Type} (s : SlotMap V) (o1 o2 o3 o4 : Bool) :
    Except Unit (SlotMap V) :=
  let newCapacity := (s.capacity * 2) % U32MOD
  if newCapacity == 0 then
    -- all four pushes have byte count 0 and return null; each memset also
    -- has byte count 0, so no fault; the null check abandons the grow with
    -- the map unmodified (LOGF "SlotMap: Failed to grow capacity ...")
    .ok s
  else if !o2 || !o3 || !o4 then
    -- the first failing arenaPushArray reaches memset with a null pointer
    -- and a nonzero byte count: fault, before the null check can run
    .error ()
  else if !o1 then
    -- only the raw value-buffer arenaPush failed (to null, no memset on
    -- that path): the null check catches it and the grow is abandoned
    .ok s
  else if newCapacity < s.capacity then
    -- 32-bit wrap made the new arrays shorter than the old ones: the
    -- memcpy of `capacity` entries runs past their end (UB)
    .error ()
  else .ok { s with
    capacity := newCapacity
    values := s.values
    indices := s.indices ++ List.replicate (newCapacity - s.capacity) U32MAX
    generations := s.generations ++ List.replicate (newCapacity - s.capacity) 0
    erase := s.erase.take s.count ++ List.replicate (newCapacity - s.count) 0 }

/-- The sparse index `slotMapInsertImpl` will use on a map with room (or
after its growth attempts, which change neither `freeHead` nor `count`):
the head of the free list if one exists, else the fresh index `count`. -/
def insChoice {V : Type} (s : SlotMap V) : Nat :=
  if s.freeHead != U32MAX then s.freeHead else s.count

/-- Common tail of `slotMapInsertImpl` (SlotMap.cpp) once the sparse index
has been chosen: append the value at dense index `count`, wire up the
sparse and erase tables, bump `count`, and pack a handle from the chosen
sparse index and its stored generation.  (`count + 1` cannot wrap: the
code only reaches this point with `count < capacity ≤ 2^32 - 1`.) -/
def slotMapInsertAt {V : Type} (s : SlotMap V) (v : V)
    (sparseIndex newFreeHead : Nat) : Nat × SlotMap V :=
  let denseIndex := s.count
  (handleMake sparseIndex (s.generations.getD sparseIndex 0),
    { s with
      count := s.count + 1
      freeHead := newFreeHead
      indices := s.indices.set sparseIndex denseIndex
      erase := s.erase.set denseIndex sparseIndex
      values := s.values ++ [v] })

/-- `slotMapInsertImpl` after the initial capacity check: pop the free list
if non-empty, otherwise take the fresh sparse index `count` (with the
defensive second grow attempt of the source, which is unreachable after
the first check has ensured `count < capacity`). -/
def slotMapInsertTail {V : Type} (s : SlotMap V) (v : V)
    (o : Bool × Bool × Bool × Bool) : Except Unit (Nat × SlotMap V) :=
  if s.freeHead != U32MAX then
    .ok (slotMapInsertAt s v s.freeHead (s.indices.getD s.freeHead 0))
  else
    let sparseIndex := s.count
    if sparseIndex ≥ s.capacity then
      match slotMapGrow s o.1 o.2.1 o.2.2.1 o.2.2.2 with
      | .error e => .error e
      | .ok s₁ =>
        if sparseIndex ≥ s₁.capacity then .ok (U32MAX, s₁)
        else .ok (slotMapInsertAt s₁ v sparseIndex s₁.freeHead)
    else .ok (slotMapInsertAt s v sparseIndex s.freeHead)

/-- `slotMapInsertImpl` (SlotMap.cpp).  The oracle supplies the arena
allocation outcomes for the up-to-two `slotMapGrow` calls (four pushes
each, in program order).  The null-map / null-value early return
(`HANDLE_INVALID_ID`) is elided: the model always receives a map and a
value.  Returns the new handle (or `U32MAX` on growth failure) together
with the updated map; a thrown `()` is a fault inside `slotMapGrow`. -/
def slotMapInsert {V : Type} (s : SlotMap V) (v : V)
    (oracle : List (Bool × Bool × Bool × Bool)) :
    Except Unit (Nat × SlotMap V) :=
  let o₁ := oracle.getD 0 (false, false, false, false)
  let o₂ := oracle.getD 1 (false, false, false, false)
  if s.count ≥ s.capacity then
    match slotMapGrow s o₁.1 o₁.2.1 o₁.2.2.1 o₁.2.2.2 with
    | .error e => .error e
    | .ok s₁ =>
      if s₁.count ≥ s₁.capacity then .ok (U32MAX, s₁)
      else slotMapInsertTail s₁ v o₂
  else slotMapInsertTail s v o₂

/-- `slotMapGetImpl` (SlotMap.cpp): returns (a pointer to) the stored value
bytes, or null.  The returned pointer dereferences the dense buffer at
`denseIndex`, modeled by `values[denseIndex]?`. -/
def slotMapGet {V : Type} (s : SlotMap V) (handle : Nat) : Option V :=
  if !handleIsValid handle then none
  else
    let sparseIndex := handleIndex handle
    let generation := handleGeneration handle
    if sparseIndex ≥ s.capacity then none
    else if s.generations.getD sparseIndex 0 != generation then none
    else
      let denseIndex := s.indices.getD sparseIndex 0
      if denseIndex == U32MAX || decide (denseIndex ≥ s.count) then none
      else s.values[denseIndex]?

/-- `slotMapRemoveImpl` (SlotMap.cpp): after the same validity checks as
`slotMapGetImpl`, swap-and-pop.  If the removed element is not the last
dense element, the last element's bytes are copied into its dense slot
and the sparse/erase entries of the moved element's slot are repointed;
then `count` is decremented, the removed slot's generation incremented
(`uint32_t` increment, hence mod `2^32`), and the slot pushed onto the
free list head, reusing its sparse entry as the next-free link. -/
def slotMapRemove {V : Type} (s : SlotMap V) (handle : Nat) : SlotMap V :=
  if !handleIsValid handle then s
  else
    let sparseIndex := handleIndex handle
    let generation := handleGeneration handle
    if sparseIndex ≥ s.capacity then s
    else if s.generations.getD sparseIndex 0 != generation then s
    else
      let denseIndex := s.indices.getD sparseIndex 0
      if denseIndex == U32MAX || decide (denseIndex ≥ s.count) then s
      else
        let lastDenseIndex := s.count - 1
        let step :=
          if denseIndex ≠ lastDenseIndex then
            let moved :=
              match s.values[lastDenseIndex]? with
              | some x => s.values.set denseIndex x
              | none => s.values
            let movedSparseIndex := s.erase.getD lastDenseIndex 0
            (moved, s.indices.set movedSparseIndex denseIndex,
              s.erase.set denseIndex movedSparseIndex)
          else (s.values, s.indices, s.erase)
        { s with
          count := s.count - 1
          values := step.1.take (s.count - 1)
          generations := s.generations.set sparseIndex
            ((s.generations.getD sparseIndex 0 + 1) % U32MOD)
          indices := step.2.1.set sparseIndex s.freeHead
          freeHead := sparseIndex
          erase := step.2.2 }

/-- `slotMapIsValidImpl` (SlotMap.cpp): exactly the validity checks of
`slotMapGetImpl`, as a boolean. -/
def slotMapIsValid {V : Type} (s : SlotMap V) (handle : Nat) : Bool :=
  if !handleIsValid handle then false
  else
    let sparseIndex := handleIndex handle
    let generation := handleGeneration handle
    if sparseIndex ≥ s.capacity then false
    else if s.generations.getD sparseIndex 0 != generation then false
    else
      let denseIndex := s.indices.getD sparseIndex 0
      denseIndex != U32MAX && decide (denseIndex < s.count)

/-!
## Arena allocator (`Arena.cpp`, `ArenaTypes.h`, `Arena.h`)

An arena is a chain of blocks; the model lists them current-first (the
head is `pCurrent`, the tail is the `pPrev` chain, the last entry is the
first-created block).  Pointers are abstracted to global byte offsets:
the address of a byte at local offset `off` in a block is
`basePos + off`, which is injective because the blocks' global ranges
`[basePos, basePos + reserved)` are disjoint.

The platform provider (`PlatformMemory_Win32.cpp`) is modeled by an
oracle `List Bool` consumed one entry per `platformReserveMemory` /
`platformCommitMemory` call, in program order (an exhausted oracle means
the call fails).  A commit additionally fails when the requested range
would extend past the block's reservation, as `VirtualAlloc(MEM_COMMIT)`
does on memory that was never reserved.

`uint64_t` arithmetic is modeled as exact `Nat` arithmetic: none of the
quantities here can approach `2^64` without an earlier reservation
failure, except through a caller-supplied `size` within `2^64` of
wrapping, which is outside the model.
-/

/-- `ARENA_HEADER_SIZE` (ArenaTypes.h). -/
def ARENA_HEADER_SIZE : Nat := 128

/-- `ARENA_DEFAULT_RESERVE` = 64MB (ArenaTypes.h). -/
def ARENA_DEFAULT_RESERVE : Nat := 67108864

/-- `ARENA_DEFAULT_COMMIT` = 64KB (ArenaTypes.h). -/
def ARENA_DEFAULT_COMMIT : Nat := 65536

/-- `alignPow2` (Arena.cpp): `value + (align - 1) & ~(align - 1)`.  For the
power-of-two alignments the function's assert demands, the mask form
equals rounding up to a multiple of `align`, written here with `%`.
(For `align = 0` both the C expression and this formula yield 0.) -/
def alignPow2 (value align : Nat) : Nat :=
  value + (align - 1) - ((value + (align - 1)) % align)

/-- One block of an arena chain: the `struct Arena` header fields
(ArenaTypes.h) minus the two pointers (`pPrev` is the list structure,
`pCurrent` is meaningful only on the head).  `flags` keeps the
`uint32_t` flag bits; bit 0 is `ArenaFlag_NoChain`. -/
structure ArenaBlock where
  flags : Nat
  commitSize : Nat
  reserveSize : Nat
  basePos : Nat
  pos : Nat
  committed : Nat
  reserved : Nat
  deriving Repr, DecidableEq

/-- `ArenaParams` (ArenaTypes.h).  `pBackingBuffer` is the optional
preallocated buffer, abstracted to an address; `none` is `nullptr`. -/
structure ArenaParams where
  flags : Nat
  reserveSize : Nat
  commitSize : Nat
  pBackingBuffer : Option Nat
  deriving Repr, DecidableEq

/-- `arenaCreate` (Arena.cpp): resolve defaults, reserve a region, commit
at least the header, and initialize the header in place.  The oracle's
first entry answers `platformReserveMemory`, the second
`platformCommitMemory` (which also fails when the initial commit cannot
fit inside the reservation).  Note the `pBackingBuffer` field of the
params is never consulted by the source function. -/
def arenaCreate (pParams : Option ArenaParams) (oracle : List Bool) :
    Option (List ArenaBlock) :=
  let reserveSize :=
    match pParams with
    | some p => if p.reserveSize ≠ 0 then p.reserveSize else ARENA_DEFAULT_RESERVE
    | none => ARENA_DEFAULT_RESERVE
  let commitSize :=
    match pParams with
    | some p => if p.commitSize ≠ 0 then p.commitSize else ARENA_DEFAULT_COMMIT
    | none => ARENA_DEFAULT_COMMIT
  let flags :=
    match pParams with
    | some p => p.flags
    | none => 0
  match oracle with
  | [] => none
  | reserveOk :: oracle₁ =>
    if !reserveOk then none
    else
      let initialCommitSize :=
        if commitSize < ARENA_HEADER_SIZE then ARENA_HEADER_SIZE else commitSize
      match oracle₁ with
      | [] => none
      | commitOk :: _ =>
        if !(commitOk && decide (initialCommitSize ≤ reserveSize)) then none
        else
          some [{ flags := flags
                  commitSize := commitSize
                  reserveSize := reserveSize
                  basePos := 0
                  pos := ARENA_HEADER_SIZE
                  committed := initialCommitSize
                  reserved := reserveSize }]

/-- Body of `arenaPush` (Arena.cpp) for a non-null arena and nonzero size,
recursing (as the source does) after chaining a new block.  Returns the
updated chain together with the pushed address (`basePos + posAligned`)
or `none` on failure, leaving the chain as the source leaves it. -/
def arenaPushGo : List ArenaBlock → Nat → Nat → List Bool →
    List ArenaBlock × Option Nat
  | [], _, _, _ => ([], none)
  | cur :: rest, size, align, oracle =>
    let posAligned := alignPow2 cur.pos align
    let posNew := posAligned + size
    if posNew > cur.reserved then
      -- not enough space in the current block: chain a new one
      if cur.flags % 2 == 1 then (cur :: rest, none)  -- ArenaFlag_NoChain
      else
        let newReserveSize :=
          if size + ARENA_HEADER_SIZE > cur.reserveSize then
            alignPow2 (size + ARENA_HEADER_SIZE) cur.commitSize
          else cur.reserveSize
        match oracle with
        | [] => (cur :: rest, none)
        | reserveOk :: oracle₁ =>
          if !reserveOk then (cur :: rest, none)
          else
            let initialCommit :=
              if ARENA_HEADER_SIZE + size > cur.commitSize then
                alignPow2 (ARENA_HEADER_SIZE + size) cur.commitSize
              else cur.commitSize
            match oracle₁ with
            | [] => (cur :: rest, none)
            | commitOk :: oracle₂ =>
              if !(commitOk && decide (initialCommit ≤ newReserveSize)) then
                (cur :: rest, none)
              else
                let newBlock : ArenaBlock :=
                  { flags := cur.flags
                    commitSize := cur.commitSize
                    reserveSize := newReserveSize
                    basePos := cur.basePos + cur.reserved
                    pos := ARENA_HEADER_SIZE
                    committed := initialCommit
                    reserved := newReserveSize }
                arenaPushGo (newBlock :: cur :: rest) size align oracle₂
    else
      -- room in the current block; commit more pages if needed
      if posNew > cur.committed then
        let commitTarget₀ := alignPow2 posNew cur.commitSize
        let commitTarget :=
          if commitTarget₀ > cur.reserved then cur.reserved else commitTarget₀
        match oracle with
        | [] => (cur :: rest, none)
        | commitOk :: _ =>
          if !commitOk then (cur :: rest, none)
          else
            ({ cur with committed := commitTarget, pos := posNew } :: rest,
              some (cur.basePos + posAligned))
      else
        ({ cur with pos := posNew } :: rest, some (cur.basePos + posAligned))

/-- `arenaPush` on a non-null arena: the `size == 0` early return followed
by `arenaPushGo`. -/
def arenaPushSt (blocks : List ArenaBlock) (size align : Nat)
    (oracle : List Bool) : List ArenaBlock × Option Nat :=
  if size == 0 then (blocks, none) else arenaPushGo blocks size align oracle

/-- `arenaPush` (Arena.cpp) including the null-arena check. -/
def arenaPush (pArena : Option (List ArenaBlock)) (size align : Nat)
    (oracle : List Bool) : Option (List ArenaBlock) × Option Nat :=
  match pArena with
  | none => (none, none)
  | some blocks =>
    let r := arenaPushSt blocks size align oracle
    (some r.1, r.2)

/-- `arenaGetPos` (Arena.cpp): `pCurrent->basePos + pCurrent->pos` (0 for a
null arena, which the model represents as the unreachable empty chain). -/
def arenaGetPos (blocks : List ArenaBlock) : Nat :=
  match blocks with
  | [] => 0
  | cur :: _ => cur.basePos + cur.pos

/-- `arenaPopTo` (Arena.cpp): clamp the target up to the header size, walk
back releasing every block whose `basePos` is at or past the target, and
set the surviving block's cursor to `target - basePos`.  (The walk
cannot exhaust the chain for a real arena: the first block's `basePos`
is 0, below the clamped target; the source logs an error and returns in
that case.) -/
def arenaPopTo (blocks : List ArenaBlock) (targetPos : Nat) : List ArenaBlock :=
  let target :=
    if targetPos < ARENA_HEADER_SIZE then ARENA_HEADER_SIZE else targetPos
  match blocks.dropWhile (fun b => decide (b.basePos ≥ target)) with
  | [] => blocks
  | cur :: rest => { cur with pos := target - cur.basePos } :: rest

/-- `arenaPop` (Arena.cpp): `popTo(currentPos - amount)`, clamped at 0. -/
def arenaPop (blocks : List ArenaBlock) (amount : Nat) : List ArenaBlock :=
  let currentPos := arenaGetPos blocks
  let targetPos := if amount < currentPos then currentPos - amount else 0
  arenaPopTo blocks targetPos

/-- `arenaClear` (Arena.cpp): `popTo(0)`. -/
def arenaClear (blocks : List ArenaBlock) : List ArenaBlock :=
  arenaPopTo blocks 0

/-- `memset(p, 0, n)` as invoked by the typed helpers in Arena.h on the
pointer returned by `arenaPush`, without a null check: dereferencing a
null pointer with a nonzero byte count is a fault. -/
def memsetZero (p : Option Nat) (n : Nat) : Except Unit (Option Nat) :=
  match p with
  | some a => .ok (some a)
  | none => if n == 0 then .ok none else .error ()

/-- `arenaPushStruct<T>` (Arena.h): push `sizeof(T)` bytes at
`max(alignof(T), 8)` and pass the result straight to `memset`.
`sizeofT ≥ 1` for every C++ type. -/
def arenaPushStruct (pArena : Option (List ArenaBlock)) (sizeofT alignofT : Nat)
    (oracle : List Bool) :
    Except Unit (Option (List ArenaBlock) × Option Nat) :=
  let align := if alignofT ≥ 8 then alignofT else 8
  let r := arenaPush pArena sizeofT align oracle
  match memsetZero r.2 sizeofT with
  | .error e => .error e
  | .ok p => .ok (r.1, p)

/-- `arenaPushArray<T>` (Arena.h): push `sizeof(T) * count` bytes at
`max(alignof(T), 8)` and pass the result straight to `memset`. -/
def arenaPushArray (pArena : Option (List ArenaBlock)) (sizeofT count alignofT : Nat)
    (oracle : List Bool) :
    Except Unit (Option (List ArenaBlock) × Option Nat) :=
  let align := if alignofT ≥ 8 then alignofT else 8
  let r := arenaPush pArena (sizeofT * count) align oracle
  match memsetZero r.2 (sizeofT * count) with
  | .error e => .error e
  | .ok p => .ok (r.1, p)

/-!
## Handle arithmetic lemmas
-/

theorem handleIndex_lt (id : Nat) : handleIndex id < HANDLE_INDEX_MOD :=
  Nat.mod_lt _ (by decide)

theorem handleGeneration_lt (id : Nat) : handleGeneration id < HANDLE_GEN_MOD :=
  Nat.mod_lt _ (by decide)

theorem handleIndex_make (i g : Nat) :
    handleIndex (handleMake i g) = i % HANDLE_INDEX_MOD := by
  simp only [handleIndex, handleMake, HANDLE_INDEX_MOD, HANDLE_GEN_MOD]
  omega

theorem handleGeneration_make (i g : Nat) :
    handleGeneration (handleMake i g) = g % HANDLE_GEN_MOD := by
  simp only [handleGeneration, handleMake, HANDLE_INDEX_MOD, HANDLE_GEN_MOD]
  omega

/-- A 32-bit handle is exactly determined by its extracted index and
generation fields: `handleMake (handleIndex k) (handleGeneration k) = k`. -/
theorem handle_eta {k : Nat} (hk : k < U32MOD) :
    handleMake (handleIndex k) (handleGeneration k) = k := by
  simp only [handleMake, handleIndex, handleGeneration, HANDLE_INDEX_MOD,
    HANDLE_GEN_MOD, U32MOD] at *
  omega

theorem handleMake_lt_u32 (i g : Nat) : handleMake i g < U32MOD := by
  simp only [handleMake, HANDLE_INDEX_MOD, HANDLE_GEN_MOD, U32MOD]
  omega

/-!
## Slot map invariants

`slotLive s i` says sparse slot `i` currently owns a live dense element:
its sparse entry points into the dense range and the erase table points
back at it.  For well-formed maps this characterizes exactly the slots
that hold an element (the slots of the handles `insert` has issued and
`remove` has not yet retired); it deliberately excludes free slots whose
free-list link happens to look like a dense index.
-/

def slotLive {V : Type} (s : SlotMap V) (i : Nat) : Prop :=
  s.indices.getD i 0 < s.count ∧ s.erase.getD (s.indices.getD i 0) 0 = i

instance {V : Type} (s : SlotMap V) (i : Nat) : Decidable (slotLive s i) := by
  unfold slotLive; infer_instance

/-- The free list: starting from `head`, the sparse-table entries chain
through exactly the indices of `fl`, ending at `UINT32_MAX`. -/
def freeChain {V : Type} (s : SlotMap V) : Nat → List Nat → Prop
  | head, [] => head = U32MAX
  | head, i :: rest => head = i ∧ freeChain s (s.indices.getD i 0) rest

instance freeChainDec {V : Type} (s : SlotMap V) :
    (head : Nat) → (fl : List Nat) → Decidable (freeChain s head fl)
  | _, [] => by unfold freeChain; infer_instance
  | head, i :: rest =>
    have : Decidable (freeChain s (s.indices.getD i 0) rest) := freeChainDec s _ rest
    by unfold freeChain; infer_instance

/-- Well-formation of a slot map relative to its free list `fl` (in
free-list order).  Writing `U` for `count + fl.length` (the number of
sparse slots ever used): the arrays have their declared lengths and the
32-bit fields are in range; used slots split into the `count` live ones
and the free list; live slots and dense indices are inverse to each
other through the sparse and erase tables; slots never used are virgin
(`UINT32_MAX` sparse entry); and each stored generation is at most 256
(a slot's generation only moves by the `remove` increment, which
requires a matching 8-bit handle generation below 256). -/
structure SMWF {V : Type} (s : SlotMap V) (fl : List Nat) : Prop where
  valuesLen : s.values.length = s.count
  indicesLen : s.indices.length = s.capacity
  gensLen : s.generations.length = s.capacity
  eraseLen : s.erase.length = s.capacity
  countLe : s.count ≤ s.capacity
  capLt : s.capacity < U32MOD
  genCap : ∀ i, i < s.capacity → s.generations.getD i 0 ≤ 256
  usedLe : s.count + fl.length ≤ s.capacity
  chain : freeChain s s.freeHead fl
  nodup : fl.Nodup
  flLt : ∀ i, i ∈ fl → i < s.count + fl.length
  live : ∀ i, i < s.count + fl.length → i ∉ fl →
    s.indices.getD i 0 < s.count ∧ s.erase.getD (s.indices.getD i 0) 0 = i
  virgin : ∀ i, s.count + fl.length ≤ i → i < s.capacity →
    s.indices.getD i 0 = U32MAX
  dense : ∀ d, d < s.count → s.erase.getD d 0 < s.count + fl.length ∧
    s.erase.getD d 0 ∉ fl ∧ s.indices.getD (s.erase.getD d 0) 0 = d

/-- A well-formed slot map: well-formed relative to some free list. -/
def SMGood {V : Type} (s : SlotMap V) : Prop := ∃ fl, SMWF s fl

theorem create_wf (V : Type) (cap : Nat) (hcap : cap < U32MOD) :
    SMWF (slotMapCreate V cap) [] := by
  unfold slotMapCreate
  refine ⟨rfl, by simp, by simp, by simp, by simp, hcap, ?_, by simp, rfl, by simp,
    by simp, ?_, ?_, by simp⟩
  · intro i hi
    simp [List.getD_eq_getElem?_getD, List.getElem?_replicate]
    split <;> simp
  · intro i hi; simp at hi
  · intro i h0 hi
    simp only [List.getD_eq_getElem?_getD, List.getElem?_replicate, if_pos hi]
    rfl

/-!
## Bridging lemmas for the slot map operations
-/

theorem isValid_iff {V : Type} (s : SlotMap V) (h : Nat) :
    slotMapIsValid s h = true ↔
      handleIsValid h = true ∧ handleIndex h < s.capacity ∧
      s.generations.getD (handleIndex h) 0 = handleGeneration h ∧
      s.indices.getD (handleIndex h) 0 ≠ U32MAX ∧
      s.indices.getD (handleIndex h) 0 < s.count := by
  unfold slotMapIsValid
  split_ifs with h1 <;>
    simp_all [Bool.and_eq_true, bne_iff_ne, Bool.not_eq_true]

theorem get_eq_ite {V : Type} (s : SlotMap V) (h : Nat) :
    slotMapGet s h =
      if slotMapIsValid s h then s.values[s.indices.getD (handleIndex h) 0]?
      else none := by
  unfold slotMapGet slotMapIsValid
  by_cases hv : handleIsValid h <;>
    by_cases hc : handleIndex h ≥ s.capacity <;>
      by_cases hg : s.generations.getD (handleIndex h) 0 = handleGeneration h <;>
        by_cases hm : s.indices.getD (handleIndex h) 0 = U32MAX <;>
          by_cases hcnt : s.indices.getD (handleIndex h) 0 < s.count <;>
            simp_all [Nat.not_lt, Nat.le_of_lt] <;>
              (try (repeat rw [if_neg (by omega)]))

theorem remove_eq_of_invalid {V : Type} {s : SlotMap V} {h : Nat}
    (hv : slotMapIsValid s h = false) : slotMapRemove s h = s := by
  unfold slotMapRemove
  unfold slotMapIsValid at hv
  dsimp only at hv ⊢
  split_ifs at hv ⊢ with hA hB hC hD hE <;> try rfl
  all_goals
    exfalso
    have hv2 : ¬ ((s.indices.getD (handleIndex h) 0 != U32MAX &&
        decide (s.indices.getD (handleIndex h) 0 < s.count)) = true) := by
      rw [hv]; exact Bool.false_ne_true
    simp only [Bool.and_eq_true, bne_iff_ne, ne_eq, decide_eq_true_eq, not_and,
      Nat.not_lt] at hv2
    simp only [Bool.or_eq_true, beq_iff_eq, decide_eq_true_eq, not_or, Bool.not_eq_true,
      decide_eq_false_iff_not, Nat.not_le] at hD
    by_cases hm : s.indices.getD (handleIndex h) 0 = U32MAX
    · omega
    · have := hv2 hm
      omega

/-!
## Growth analysis
-/

/-- Shape of a successful capacity doubling performed by `slotMapGrow`. -/
structure GrowSpec {V : Type} (s s₂ : SlotMap V) : Prop where
  cap2 : s₂.capacity = (s.capacity * 2) % U32MOD
  capPos : 0 < s₂.capacity
  capLe : s.capacity ≤ s₂.capacity
  count2 : s₂.count = s.count
  freeHead2 : s₂.freeHead = s.freeHead
  values2 : s₂.values = s.values
  indices2 : s₂.indices = s.indices ++ List.replicate (s₂.capacity - s.capacity) U32MAX
  gens2 : s₂.generations = s.generations ++ List.replicate (s₂.capacity - s.capacity) 0
  erase2 : s₂.erase = s.erase.take s.count ++ List.replicate (s₂.capacity - s.count) 0

theorem grow_ok_cases {V : Type} {s s₂ : SlotMap V} {o1 o2 o3 o4 : Bool}
    (h : slotMapGrow s o1 o2 o3 o4 = .ok s₂) : s₂ = s ∨ GrowSpec s s₂ := by
  unfold slotMapGrow at h
  dsimp only at h
  split_ifs at h with hz hfault ho1 hwrap
  · exact Or.inl (Except.ok.inj h).symm
  · exact Or.inl (Except.ok.inj h).symm
  · right
    simp only [beq_iff_eq] at hz
    obtain rfl := (Except.ok.inj h).symm
    exact ⟨rfl, Nat.pos_of_ne_zero hz, Nat.le_of_not_lt hwrap, rfl, rfl, rfl, rfl, rfl, rfl⟩

theorem freeChain_congr {V : Type} {s s₂ : SlotMap V} {fl : List Nat}
    (hind : ∀ i, i ∈ fl → s₂.indices.getD i 0 = s.indices.getD i 0) :
    ∀ {head : Nat}, freeChain s head fl → freeChain s₂ head fl := by
  induction fl with
  | nil => intro head hc; exact hc
  | cons j rest ih =>
    intro head hc
    simp only [freeChain] at hc ⊢
    obtain ⟨hh, hrest⟩ := hc
    subst hh
    refine ⟨rfl, ?_⟩
    rw [hind head (by simp)]
    exact ih (fun m hm => hind m (List.mem_cons_of_mem _ hm)) hrest

theorem GrowSpec.gens_getD {V : Type} {s s₂ : SlotMap V} (hg : GrowSpec s s₂)
    (i : Nat) : s₂.generations.getD i 0 = s.generations.getD i 0 := by
  rw [hg.gens2]
  simp only [List.getD_eq_getElem?_getD]
  rcases Nat.lt_or_ge i s.generations.length with hi | hi
  · rw [List.getElem?_append_left hi]
  · rw [List.getElem?_append_right hi, List.getElem?_len_le hi,
      List.getElem?_replicate]
    split <;> rfl

theorem GrowSpec.indices_getD_lt {V : Type} {s s₂ : SlotMap V} (hg : GrowSpec s s₂)
    {i : Nat} (hi : i < s.indices.length) :
    s₂.indices.getD i 0 = s.indices.getD i 0 := by
  rw [hg.indices2]
  simp only [List.getD_eq_getElem?_getD]
  rw [List.getElem?_append_left hi]

theorem GrowSpec.indices_getD_ge {V : Type} {s s₂ : SlotMap V} (hg : GrowSpec s s₂)
    (hlen : s.indices.length = s.capacity) {i : Nat} (hge : s.capacity ≤ i)
    (hlt : i < s₂.capacity) : s₂.indices.getD i 0 = U32MAX := by
  rw [hg.indices2]
  simp only [List.getD_eq_getElem?_getD]
  rw [List.getElem?_append_right (by omega), List.getElem?_replicate, if_pos (by omega)]
  rfl

theorem GrowSpec.erase_getD_lt {V : Type} {s s₂ : SlotMap V} (hg : GrowSpec s s₂)
    {d : Nat} (hd : d < s.count) (hd2 : d < s.erase.length) :
    s₂.erase.getD d 0 = s.erase.getD d 0 := by
  rw [hg.erase2]
  simp only [List.getD_eq_getElem?_getD]
  rw [List.getElem?_append_left (by simp [List.length_take]; omega),
    List.getElem?_take_of_lt hd]

/-- A successful growth (or a gracefully failed one) changes the validity
and the looked-up value of no handle whatsoever (C3 core). -/
theorem grow_preserves_handles {V : Type} {s s₂ : SlotMap V}
    (hcase : s₂ = s ∨ GrowSpec s s₂)
    (hilen : s.indices.length = s.capacity)
    (hglen : s.generations.length = s.capacity) :
    ∀ h, slotMapIsValid s₂ h = slotMapIsValid s h ∧
      slotMapGet s₂ h = slotMapGet s h := by
  intro h
  rcases hcase with rfl | hg
  · exact ⟨rfl, rfl⟩
  have hvalid : slotMapIsValid s₂ h = slotMapIsValid s h := by
    rcases Nat.lt_or_ge (handleIndex h) s.capacity with hc | hc
    · rw [Bool.eq_iff_iff, isValid_iff, isValid_iff, hg.gens_getD,
        hg.indices_getD_lt (by omega), hg.count2]
      have : handleIndex h < s₂.capacity := by
        have := hg.capLe; omega
      tauto
    · have hs : slotMapIsValid s h = false := by
        rw [Bool.eq_false_iff]
        intro hcon
        exact absurd ((isValid_iff s h).mp hcon).2.1 (by omega)
      rw [hs, Bool.eq_false_iff]
      intro hcon
      obtain ⟨_, hcap2, hgen2, hne2, _⟩ := (isValid_iff s₂ h).mp hcon
      rw [hg.indices_getD_ge hilen hc hcap2] at hne2
      exact hne2 rfl
  refine ⟨hvalid, ?_⟩
  rw [get_eq_ite, get_eq_ite, hvalid]
  by_cases hv : slotMapIsValid s h = true
  · rw [if_pos hv, if_pos hv, hg.values2]
    obtain ⟨_, hcap, _, _, _⟩ := (isValid_iff s h).mp hv
    rw [hg.indices_getD_lt (by omega)]
  · rw [Bool.not_eq_true] at hv
    rw [hv]
    simp

/-- Growth (successful or gracefully failed) preserves well-formation with
the same free list. -/
theorem grow_wf {V : Type} {s s₂ : SlotMap V} {fl : List Nat}
    (hwf : SMWF s fl) (hcase : s₂ = s ∨ GrowSpec s s₂) : SMWF s₂ fl := by
  rcases hcase with rfl | hg
  · exact hwf
  have hcapLe := hg.capLe
  have hU : s.count + fl.length ≤ s.capacity := hwf.usedLe
  refine ⟨?_, ?_, ?_, ?_, ?_, ?_, ?_, ?_, ?_, hwf.nodup, ?_, ?_, ?_, ?_⟩
  · rw [hg.values2, hg.count2]; exact hwf.valuesLen
  · rw [hg.indices2]
    simp only [List.length_append, List.length_replicate, hwf.indicesLen]
    omega
  · rw [hg.gens2]
    simp only [List.length_append, List.length_replicate, hwf.gensLen]
    omega
  · rw [hg.erase2]
    simp only [List.length_append, List.length_replicate, List.length_take,
      hwf.eraseLen]
    have := hwf.countLe
    omega
  · rw [hg.count2]; omega
  · rw [hg.cap2]; exact Nat.mod_lt _ (by decide)
  · intro i hi
    rw [hg.gens_getD]
    rcases Nat.lt_or_ge i s.capacity with hc | hc
    · exact hwf.genCap i hc
    · rw [List.getD_eq_getElem?_getD, List.getElem?_len_le (by rw [hwf.gensLen]; omega)]
      decide
  · rw [hg.count2]; omega
  · rw [hg.freeHead2]
    refine freeChain_congr ?_ hwf.chain
    intro i hi
    have : i < s.capacity := by have := hwf.flLt i hi; omega
    exact hg.indices_getD_lt (by rw [hwf.indicesLen]; omega)
  · rw [hg.count2]; exact hwf.flLt
  · intro i hi hni
    rw [hg.count2] at hi ⊢
    have hic : i < s.capacity := by omega
    rw [hg.indices_getD_lt (by rw [hwf.indicesLen]; omega)]
    obtain ⟨h1, h2⟩ := hwf.live i hi hni
    refine ⟨h1, ?_⟩
    rw [hg.erase_getD_lt h1 (by rw [hwf.eraseLen]; have := hwf.countLe; omega)]
    exact h2
  · intro i hge hlt
    rw [hg.count2] at hge
    rcases Nat.lt_or_ge i s.capacity with hc | hc
    · rw [hg.indices_getD_lt (by rw [hwf.indicesLen]; omega)]
      exact hwf.virgin i hge hc
    · exact hg.indices_getD_ge hwf.indicesLen hc hlt
  · intro d hd
    rw [hg.count2] at hd ⊢
    have heq := hg.erase_getD_lt hd (by rw [hwf.eraseLen]; have := hwf.countLe; omega)
    rw [heq]
    obtain ⟨h1, h2, h3⟩ := hwf.dense d hd
    refine ⟨h1, h2, ?_⟩
    rw [hg.indices_getD_lt (by rw [hwf.indicesLen]; omega)]
    exact h3

/-!
## Insert analysis
-/

theorem insertTail_ok_elim {V : Type} {s₁ : SlotMap V} {v : V}
    {o : Bool × Bool × Bool × Bool} {h : Nat} {s₂ : SlotMap V}
    (hlt : s₁.count < s₁.capacity)
    (ht : slotMapInsertTail s₁ v o = .ok (h, s₂)) :
    (s₁.freeHead ≠ U32MAX ∧
      (h, s₂) = slotMapInsertAt s₁ v s₁.freeHead (s₁.indices.getD s₁.freeHead 0)) ∨
    (s₁.freeHead = U32MAX ∧ (h, s₂) = slotMapInsertAt s₁ v s₁.count s₁.freeHead) := by
  unfold slotMapInsertTail at ht
  dsimp only at ht
  split_ifs at ht with hfh hge
  · left
    simp only [bne_iff_ne, ne_eq] at hfh
    exact ⟨hfh, (Except.ok.inj ht).symm⟩
  · omega
  · right
    simp only [bne_iff_ne, ne_eq, not_not] at hfh
    exact ⟨hfh, (Except.ok.inj ht).symm⟩

theorem insert_ok_elim {V : Type} {s : SlotMap V} {v : V}
    {oracle : List (Bool × Bool × Bool × Bool)} {h : Nat} {s₂ : SlotMap V}
    (hcle : s.count ≤ s.capacity) (hcap : s.capacity < U32MOD)
    (hins : slotMapInsert s v oracle = .ok (h, s₂)) :
    ∃ s₁, (s₁ = s ∨ GrowSpec s s₁) ∧ s₁.count = s.count ∧
      s₁.freeHead = s.freeHead ∧ s.capacity ≤ s₁.capacity ∧
      ((h = U32MAX ∧ s₂ = s₁ ∧ s₁.capacity ≤ s₁.count) ∨
       (s₁.count < s₁.capacity ∧
         ((s₁.freeHead ≠ U32MAX ∧
            (h, s₂) = slotMapInsertAt s₁ v s₁.freeHead (s₁.indices.getD s₁.freeHead 0)) ∨
          (s₁.freeHead = U32MAX ∧
            (h, s₂) = slotMapInsertAt s₁ v s₁.count s₁.freeHead)))) := by
  unfold slotMapInsert at hins
  dsimp only at hins
  split_ifs at hins with htop
  · -- count = capacity: the initial grow runs
    revert hins
    cases hg : slotMapGrow s (oracle.getD 0 (false, false, false, false)).1
      (oracle.getD 0 (false, false, false, false)).2.1
      (oracle.getD 0 (false, false, false, false)).2.2.1
      (oracle.getD 0 (false, false, false, false)).2.2.2 with
    | error e => intro hins; exact Except.noConfusion hins
    | ok s₁ =>
      intro hins
      have hcase := grow_ok_cases hg
      have hcnt : s₁.count = s.count := by
        rcases hcase with rfl | hgs
        · rfl
        · exact hgs.count2
      have hfh : s₁.freeHead = s.freeHead := by
        rcases hcase with rfl | hgs
        · rfl
        · exact hgs.freeHead2
      have hcple : s.capacity ≤ s₁.capacity := by
        rcases hcase with rfl | hgs
        · exact Nat.le_refl _
        · exact hgs.capLe
      refine ⟨s₁, hcase, hcnt, hfh, hcple, ?_⟩
      dsimp only at hins
      split_ifs at hins with hfull
      · obtain ⟨h1, h2⟩ := Prod.mk.injEq .. ▸ (Except.ok.inj hins)
        exact Or.inl ⟨h1.symm, h2.symm, hfull⟩
      · exact Or.inr ⟨by omega, insertTail_ok_elim (by omega) hins⟩
  · -- count < capacity: straight to the tail
    refine ⟨s, Or.inl rfl, rfl, rfl, Nat.le_refl _, ?_⟩
    exact Or.inr ⟨by omega, insertTail_ok_elim (by omega) hins⟩

theorem getD_set_self {α : Type} {l : List α} {i : Nat} {a d : α}
    (hi : i < l.length) : (l.set i a).getD i d = a := by
  simp [List.getD_eq_getElem?_getD, List.getElem?_set_self hi]

theorem getD_set_ne {α : Type} {l : List α} {i j : Nat} {a d : α}
    (hij : i ≠ j) : (l.set i a).getD j d = l.getD j d := by
  simp [List.getD_eq_getElem?_getD, List.getElem?_set_ne hij]

/-- Inserting into a popped free slot preserves well-formation, consuming
the head of the free list. -/
theorem insertAt_wf_free {V : Type} {s₁ : SlotMap V} (v : V) {j : Nat}
    {fl' : List Nat} (hwf : SMWF s₁ (j :: fl')) :
    SMWF (slotMapInsertAt s₁ v j (s₁.indices.getD j 0)).2 fl' := by
  have hjU : j < s₁.count + (j :: fl').length := hwf.flLt j (by simp)
  have hUle := hwf.usedLe
  simp only [List.length_cons] at hjU hUle
  have hjcap : j < s₁.capacity := by omega
  have hccap : s₁.count < s₁.capacity := by omega
  have hnd := hwf.nodup
  rw [List.nodup_cons] at hnd
  have hjfl' : j ∉ fl' := hnd.1
  unfold slotMapInsertAt
  dsimp only
  constructor
  case valuesLen => simp [hwf.valuesLen]
  case indicesLen => simp [hwf.indicesLen]
  case gensLen => exact hwf.gensLen
  case eraseLen => simp [hwf.eraseLen]
  case countLe => dsimp only; omega
  case capLt => exact hwf.capLt
  case genCap => exact hwf.genCap
  case usedLe => dsimp only; omega
  case chain =>
    have hch := hwf.chain
    simp only [freeChain] at hch
    refine freeChain_congr ?_ hch.2
    intro m hm
    apply getD_set_ne
    intro he
    subst he
    exact hjfl' hm
  case nodup => exact hnd.2
  case flLt =>
    intro m hm
    have := hwf.flLt m (by simp [hm])
    simp only [List.length_cons] at this
    dsimp only
    omega
  case live =>
    intro i hiU hifl
    dsimp only at hiU ⊢
    by_cases hij : i = j
    · subst hij
      refine ⟨?_, ?_⟩
      · rw [getD_set_self (by rw [hwf.indicesLen]; omega)]
        omega
      · rw [getD_set_self (by rw [hwf.indicesLen]; omega),
          getD_set_self (by rw [hwf.eraseLen]; omega)]
    · have hil : i ∉ (j :: fl') := by
        simp only [List.mem_cons]
        push_neg
        exact ⟨hij, hifl⟩
      have hold := hwf.live i (by simp only [List.length_cons]; omega) hil
      rw [getD_set_ne (Ne.symm hij)]
      refine ⟨by omega, ?_⟩
      rw [getD_set_ne (by omega)]
      exact hold.2
  case virgin =>
    intro i hge hlt
    dsimp only at hge ⊢
    have : i ≠ j := by omega
    rw [getD_set_ne (Ne.symm this)]
    refine hwf.virgin i ?_ hlt
    simp only [List.length_cons]
    omega
  case dense =>
    intro d hd
    dsimp only at hd ⊢
    by_cases hdc : d = s₁.count
    · subst hdc
      rw [getD_set_self (by rw [hwf.eraseLen]; omega)]
      refine ⟨by omega, hjfl', ?_⟩
      rw [getD_set_self (by rw [hwf.indicesLen]; omega)]
    · have hdlt : d < s₁.count := by omega
      have hold := hwf.dense d hdlt
      simp only [List.length_cons] at hold
      rw [getD_set_ne (by omega)]
      have herj : s₁.erase.getD d 0 ≠ j := by
        intro he
        exact hold.2.1 (he ▸ List.mem_cons_self j fl')
      refine ⟨by omega, ?_, ?_⟩
      · intro hmem
        exact hold.2.1 (List.mem_cons_of_mem _ hmem)
      · rw [getD_set_ne (Ne.symm herj)]
        omega

/-- Inserting into the fresh sparse slot `count` (empty free list)
preserves well-formation. -/
theorem insertAt_wf_fresh {V : Type} {s₁ : SlotMap V} (v : V)
    (hwf : SMWF s₁ []) (hlt : s₁.count < s₁.capacity)
    (hfh : s₁.freeHead = U32MAX) :
    SMWF (slotMapInsertAt s₁ v s₁.count s₁.freeHead).2 [] := by
  have hUle := hwf.usedLe
  simp only [List.length_nil, Nat.add_zero] at hUle
  unfold slotMapInsertAt
  dsimp only
  constructor
  case valuesLen => simp [hwf.valuesLen]
  case indicesLen => simp [hwf.indicesLen]
  case gensLen => exact hwf.gensLen
  case eraseLen => simp [hwf.eraseLen]
  case countLe => dsimp only; omega
  case capLt => exact hwf.capLt
  case genCap => exact hwf.genCap
  case usedLe => dsimp only; simp only [List.length_nil]; omega
  case chain => exact hfh
  case nodup => exact List.nodup_nil
  case flLt => intro m hm; exact absurd hm (List.not_mem_nil m)
  case live =>
    intro i hiU hifl
    dsimp only at hiU ⊢
    simp only [List.length_nil, Nat.add_zero] at hiU
    by_cases hic : i = s₁.count
    · subst hic
      refine ⟨?_, ?_⟩
      · rw [getD_set_self (by rw [hwf.indicesLen]; omega)]
        omega
      · rw [getD_set_self (by rw [hwf.indicesLen]; omega),
          getD_set_self (by rw [hwf.eraseLen]; omega)]
    · have hilt : i < s₁.count := by omega
      have hold := hwf.live i (by simp only [List.length_nil]; omega)
        (List.not_mem_nil i)
      rw [getD_set_ne (by omega)]
      refine ⟨by omega, ?_⟩
      rw [getD_set_ne (by omega)]
      exact hold.2
  case virgin =>
    intro i hge hlt2
    dsimp only at hge ⊢
    simp only [List.length_nil, Nat.add_zero] at hge
    rw [getD_set_ne (by omega)]
    refine hwf.virgin i ?_ hlt2
    simp only [List.length_nil]
    omega
  case dense =>
    intro d hd
    dsimp only at hd ⊢
    simp only [List.length_nil, Nat.add_zero] at *
    by_cases hdc : d = s₁.count
    · subst hdc
      rw [getD_set_self (by rw [hwf.eraseLen]; omega)]
      refine ⟨by omega, List.not_mem_nil _, ?_⟩
      rw [getD_set_self (by rw [hwf.indicesLen]; omega)]
    · have hdlt : d < s₁.count := by omega
      have hold := hwf.dense d hdlt
      simp only [List.length_nil, Nat.add_zero] at hold
      rw [getD_set_ne (by omega)]
      refine ⟨by omega, List.not_mem_nil _, ?_⟩
      rw [getD_set_ne (by omega)]
      exact hold.2.2

theorem slotLive_spec {V : Type} {s : SlotMap V} {fl : List Nat} {i : Nat}
    (hwf : SMWF s fl) (hl : slotLive s i) :
    i < s.count + fl.length ∧ i ∉ fl ∧ s.indices.getD i 0 < s.count := by
  obtain ⟨hd, he⟩ := hl
  have := hwf.dense _ hd
  rw [he] at this
  exact ⟨this.1, this.2.1, hd⟩

theorem freeChain_head_ne {V : Type} {s : SlotMap V} {fl : List Nat}
    (hwf : SMWF s fl) (hne : s.freeHead ≠ U32MAX) :
    ∃ fl', fl = s.freeHead :: fl' := by
  cases hfl : fl with
  | nil =>
    have := hwf.chain
    rw [hfl] at this
    exact absurd this hne
  | cons j fl' =>
    have := hwf.chain
    rw [hfl] at this
    simp only [freeChain] at this
    exact ⟨fl', by rw [this.1]⟩

theorem freeChain_head_eq {V : Type} {s : SlotMap V} {fl : List Nat}
    (hwf : SMWF s fl) (heq : s.freeHead = U32MAX) : fl = [] := by
  cases hfl : fl with
  | nil => rfl
  | cons j fl' =>
    exfalso
    have hch := hwf.chain
    rw [hfl] at hch
    simp only [freeChain] at hch
    have hj := hwf.flLt j (by rw [hfl]; simp)
    have hU := hwf.usedLe
    have hcap := hwf.capLt
    rw [hfl] at hj hU
    have : j < s.capacity := by
      simp only [List.length_cons] at hj hU
      omega
    rw [← hch.1, heq] at this
    simp only [U32MAX, U32MOD] at this hcap
    omega

/-- A successful insert yields a well-formed slot map. -/
theorem insert_good {V : Type} {s : SlotMap V} {fl : List Nat} {v : V}
    {oracle : List (Bool × Bool × Bool × Bool)} {h : Nat} {s₂ : SlotMap V}
    (hwf : SMWF s fl) (hins : slotMapInsert s v oracle = .ok (h, s₂)) :
    SMGood s₂ := by
  obtain ⟨s₁, hcase, hcnt, hfh, hcple, hrest⟩ :=
    insert_ok_elim hwf.countLe hwf.capLt hins
  have hwf₁ : SMWF s₁ fl := grow_wf hwf hcase
  rcases hrest with ⟨_, rfl, _⟩ | ⟨hlt, hpath⟩
  · exact ⟨fl, hwf₁⟩
  rcases hpath with ⟨hne, heq⟩ | ⟨hM, heq⟩
  · obtain ⟨fl', hfl⟩ := freeChain_head_ne hwf₁ hne
    subst hfl
    refine ⟨fl', ?_⟩
    have := insertAt_wf_free v hwf₁
    rw [← heq] at this
    exact this
  · have hfl := freeChain_head_eq hwf₁ hM
    subst hfl
    refine ⟨[], ?_⟩
    have := insertAt_wf_fresh v hwf₁ hlt hM
    rw [← heq] at this
    exact this

theorem insertAt_preserves_live {V : Type} {s₁ : SlotMap V} (v : V)
    {j : Nat} (nf : Nat) {h' : Nat}
    (hlen : s₁.values.length = s₁.count) (hji : j ≠ handleIndex h')
    (hl : slotLive s₁ (handleIndex h')) :
    slotMapIsValid (slotMapInsertAt s₁ v j nf).2 h' = slotMapIsValid s₁ h' ∧
    slotMapGet (slotMapInsertAt s₁ v j nf).2 h' = slotMapGet s₁ h' ∧
    slotLive (slotMapInsertAt s₁ v j nf).2 (handleIndex h') := by
  obtain ⟨hd, he⟩ := hl
  have hind : (slotMapInsertAt s₁ v j nf).2.indices.getD (handleIndex h') 0 =
      s₁.indices.getD (handleIndex h') 0 := by
    unfold slotMapInsertAt
    dsimp only
    exact getD_set_ne hji
  have hgen : (slotMapInsertAt s₁ v j nf).2.generations = s₁.generations := rfl
  have hcap : (slotMapInsertAt s₁ v j nf).2.capacity = s₁.capacity := rfl
  have hcnt : (slotMapInsertAt s₁ v j nf).2.count = s₁.count + 1 := rfl
  have her : (slotMapInsertAt s₁ v j nf).2.erase.getD
      (s₁.indices.getD (handleIndex h') 0) 0 =
      s₁.erase.getD (s₁.indices.getD (handleIndex h') 0) 0 := by
    unfold slotMapInsertAt
    dsimp only
    exact getD_set_ne (by omega)
  have hvalid : slotMapIsValid (slotMapInsertAt s₁ v j nf).2 h' =
      slotMapIsValid s₁ h' := by
    rw [Bool.eq_iff_iff, isValid_iff, isValid_iff, hind, hgen, hcap, hcnt]
    constructor
    · rintro ⟨a, b, c, d2, e⟩
      exact ⟨a, b, c, d2, by omega⟩
    · rintro ⟨a, b, c, d2, e⟩
      exact ⟨a, b, c, d2, by omega⟩
  refine ⟨hvalid, ?_, ?_⟩
  · rw [get_eq_ite, get_eq_ite, hvalid, hind]
    by_cases hv : slotMapIsValid s₁ h' = true
    · rw [if_pos hv, if_pos hv]
      show (s₁.values ++ [v])[s₁.indices.getD (handleIndex h') 0]? = _
      rw [List.getElem?_append_left (by omega)]
    · rw [Bool.not_eq_true] at hv
      rw [hv]
      simp
  · exact ⟨by rw [hind, hcnt]; omega, by rw [hind, her, he]⟩

theorem insert_preserves_live {V : Type} {s : SlotMap V} {fl : List Nat} {v : V}
    {oracle : List (Bool × Bool × Bool × Bool)} {h h' : Nat} {s₂ : SlotMap V}
    (hwf : SMWF s fl) (hl : slotLive s (handleIndex h'))
    (hins : slotMapInsert s v oracle = .ok (h, s₂)) :
    slotMapIsValid s₂ h' = slotMapIsValid s h' ∧
    slotMapGet s₂ h' = slotMapGet s h' ∧ slotLive s₂ (handleIndex h') := by
  obtain ⟨s₁, hcase, hcnt, hfh, hcple, hrest⟩ :=
    insert_ok_elim hwf.countLe hwf.capLt hins
  have hwf₁ : SMWF s₁ fl := grow_wf hwf hcase
  obtain ⟨hiU, hifl, hid⟩ := slotLive_spec hwf hl
  have hicap : handleIndex h' < s.capacity := by
    have := hwf.usedLe; omega
  have hl₁ : slotLive s₁ (handleIndex h') := by
    rcases hcase with rfl | hg
    · exact hl
    · obtain ⟨hd, he⟩ := hl
      constructor
      · rw [hg.indices_getD_lt (by rw [hwf.indicesLen]; omega), hg.count2]
        exact hd
      · rw [hg.indices_getD_lt (by rw [hwf.indicesLen]; omega),
          hg.erase_getD_lt hd (by rw [hwf.eraseLen]; have := hwf.countLe; omega)]
        exact he
  have hpres := grow_preserves_handles hcase hwf.indicesLen hwf.gensLen h'
  rcases hrest with ⟨_, rfl, _⟩ | ⟨hlt, hpath⟩
  · exact ⟨hpres.1, hpres.2, hl₁⟩
  rcases hpath with ⟨hne, heq⟩ | ⟨hM, heq⟩
  · obtain ⟨fl', hfl⟩ := freeChain_head_ne hwf₁ hne
    have hji : s₁.freeHead ≠ handleIndex h' := by
      intro hcon
      apply hifl
      rw [hfl, hcon]
      exact List.mem_cons_self _ _
    have := insertAt_preserves_live v
      (s₁.indices.getD s₁.freeHead 0) hwf₁.valuesLen hji
      (by exact hl₁)
    rw [← heq] at this
    exact ⟨this.1.trans hpres.1, this.2.1.trans hpres.2, this.2.2⟩
  · have hfl := freeChain_head_eq hwf₁ hM
    have hji : s₁.count ≠ handleIndex h' := by
      subst hfl
      obtain ⟨hiU₁, _, _⟩ := slotLive_spec hwf₁ hl₁
      simp only [List.length_nil, Nat.add_zero] at hiU₁
      omega
    have := insertAt_preserves_live v s₁.freeHead
      hwf₁.valuesLen hji (by exact hl₁)
    rw [← heq] at this
    exact ⟨this.1.trans hpres.1, this.2.1.trans hpres.2, this.2.2⟩

/-- What a successful, non-sentinel insert returns: a handle packed from
the chosen sparse slot and that slot's stored generation, with the value
appended at dense index `count` and the tables wired up. -/
theorem insert_ok_handle {V : Type} {s : SlotMap V} {fl : List Nat} {v : V}
    {oracle : List (Bool × Bool × Bool × Bool)} {h : Nat} {s₂ : SlotMap V}
    (hwf : SMWF s fl) (hins : slotMapInsert s v oracle = .ok (h, s₂))
    (hne : h ≠ U32MAX ∨ s₂.count = s.count + 1) :
    h = handleMake (insChoice s) (s.generations.getD (insChoice s) 0) ∧
    s₂.generations.getD (insChoice s) 0 = s.generations.getD (insChoice s) 0 ∧
    s₂.indices.getD (insChoice s) 0 = s.count ∧
    s₂.count = s.count + 1 ∧
    s₂.values[s.count]? = some v ∧
    insChoice s < s₂.capacity ∧
    s₂.erase.getD s.count 0 = insChoice s ∧
    s₂.capacity < U32MOD := by
  obtain ⟨s₁, hcase, hcnt, hfh, hcple, hrest⟩ :=
    insert_ok_elim hwf.countLe hwf.capLt hins
  have hwf₁ : SMWF s₁ fl := grow_wf hwf hcase
  have hgens₁ : ∀ i, s₁.generations.getD i 0 = s.generations.getD i 0 := by
    intro i
    rcases hcase with rfl | hg
    · rfl
    · exact hg.gens_getD i
  rcases hrest with ⟨rfl, heq2, _⟩ | ⟨hlt, hpath⟩
  · rcases hne with hne | hne
    · exact absurd rfl hne
    · rw [heq2] at hne
      omega
  have hcnt₁len : s₁.values.length = s₁.count := hwf₁.valuesLen
  rcases hpath with ⟨hnf, heq⟩ | ⟨hM, heq⟩
  · -- free-list pop: the chosen slot is the free head
    have hchoice : insChoice s = s₁.freeHead := by
      unfold insChoice
      rw [← hfh]
      simp [hnf]
    obtain ⟨fl', hfl⟩ := freeChain_head_ne hwf₁ hnf
    have hjcap : s₁.freeHead < s₁.capacity := by
      have h1 := hwf₁.flLt s₁.freeHead (by rw [hfl]; exact List.mem_cons_self _ _)
      have h2 := hwf₁.usedLe
      omega
    obtain ⟨he1, he2⟩ := Prod.mk.injEq .. ▸ heq
    rw [hchoice]
    refine ⟨?_, ?_, ?_, ?_, ?_, ?_, ?_, ?_⟩
    · rw [he1]
      show handleMake _ (s₁.generations.getD _ 0) = _
      rw [hgens₁]
    · rw [he2]
      show s₁.generations.getD _ 0 = _
      exact hgens₁ _
    · rw [he2]
      show (s₁.indices.set s₁.freeHead s₁.count).getD s₁.freeHead 0 = s.count
      rw [getD_set_self (by rw [hwf₁.indicesLen]; omega)]
      omega
    · rw [he2]
      show s₁.count + 1 = s.count + 1
      omega
    · rw [he2]
      show (s₁.values ++ [v])[s.count]? = some v
      have : s.count = s₁.values.length := by omega
      rw [this, List.getElem?_concat_length]
    · rw [he2]
      show s₁.freeHead < s₁.capacity
      exact hjcap
    · rw [he2]
      show (s₁.erase.set s₁.count s₁.freeHead).getD s.count 0 = s₁.freeHead
      have : s.count = s₁.count := by omega
      rw [this, getD_set_self (by rw [hwf₁.eraseLen]; omega)]
    · rw [he2]
      exact hwf₁.capLt
  · -- fresh slot `count`
    have hchoice : insChoice s = s.count := by
      unfold insChoice
      rw [← hfh]
      simp [hM]
    obtain ⟨he1, he2⟩ := Prod.mk.injEq .. ▸ heq
    rw [hchoice]
    refine ⟨?_, ?_, ?_, ?_, ?_, ?_, ?_, ?_⟩
    · rw [he1]
      show handleMake _ (s₁.generations.getD _ 0) = _
      rw [hgens₁, hcnt]
    · rw [he2]
      show s₁.generations.getD _ 0 = _
      rw [hgens₁]
    · rw [he2]
      show (s₁.indices.set s₁.count s₁.count).getD s.count 0 = s.count
      rw [← hcnt, getD_set_self (by rw [hwf₁.indicesLen]; omega)]
    · rw [he2]
      show s₁.count + 1 = s.count + 1
      omega
    · rw [he2]
      show (s₁.values ++ [v])[s.count]? = some v
      have : s.count = s₁.values.length := by omega
      rw [this, List.getElem?_concat_length]
    · rw [he2]
      show s.count < s₁.capacity
      omega
    · rw [he2]
      show (s₁.erase.set s₁.count s₁.count).getD s.count 0 = s.count
      rw [← hcnt, getD_set_self (by rw [hwf₁.eraseLen]; omega)]
    · rw [he2]
      exact hwf₁.capLt

/-!
## Remove analysis
-/

theorem remove_eq_last {V : Type} {s : SlotMap V} {k : Nat}
    (hv : slotMapIsValid s k = true)
    (heq : s.indices.getD (handleIndex k) 0 = s.count - 1) :
    slotMapRemove s k =
      { s with
        count := s.count - 1
        values := s.values.take (s.count - 1)
        generations := s.generations.set (handleIndex k)
          ((s.generations.getD (handleIndex k) 0 + 1) % U32MOD)
        indices := s.indices.set (handleIndex k) s.freeHead
        freeHead := handleIndex k } := by
  obtain ⟨h1, h2, h3, h4, h5⟩ := (isValid_iff s k).mp hv
  unfold slotMapRemove
  rw [if_neg (by simp [h1]), if_neg (by omega),
    if_neg (by simp only [bne_iff_ne, ne_eq, not_not]; exact h3),
    if_neg (by simp only [Bool.or_eq_true, beq_iff_eq, decide_eq_true_eq]; omega)]
  dsimp only
  rw [if_neg (by simp only [ne_eq, not_not]; exact heq)]

theorem remove_eq_swap {V : Type} {s : SlotMap V} {k : Nat}
    (hv : slotMapIsValid s k = true)
    (hne : s.indices.getD (handleIndex k) 0 ≠ s.count - 1) :
    slotMapRemove s k =
      { s with
        count := s.count - 1
        values := (match s.values[s.count - 1]? with
          | some x => s.values.set (s.indices.getD (handleIndex k) 0) x
          | none => s.values).take (s.count - 1)
        generations := s.generations.set (handleIndex k)
          ((s.generations.getD (handleIndex k) 0 + 1) % U32MOD)
        indices := (s.indices.set (s.erase.getD (s.count - 1) 0)
          (s.indices.getD (handleIndex k) 0)).set (handleIndex k) s.freeHead
        freeHead := handleIndex k
        erase := s.erase.set (s.indices.getD (handleIndex k) 0)
          (s.erase.getD (s.count - 1) 0) } := by
  obtain ⟨h1, h2, h3, h4, h5⟩ := (isValid_iff s k).mp hv
  unfold slotMapRemove
  rw [if_neg (by simp [h1]), if_neg (by omega),
    if_neg (by simp only [bne_iff_ne, ne_eq, not_not]; exact h3),
    if_neg (by simp only [Bool.or_eq_true, beq_iff_eq, decide_eq_true_eq]; omega)]
  dsimp only
  rw [if_pos hne]

/-- Removing a live element preserves well-formation; the vacated slot is
pushed onto the free list. -/
theorem remove_wf {V : Type} {s : SlotMap V} {fl : List Nat} {k : Nat}
    (hwf : SMWF s fl) (hl : slotLive s (handleIndex k))
    (hv : slotMapIsValid s k = true) :
    SMWF (slotMapRemove s k) (handleIndex k :: fl) := by
  obtain ⟨hvh, hcap, hgen, hnM, hdc⟩ := (isValid_iff s k).mp hv
  obtain ⟨hiU, hifl, _⟩ := slotLive_spec hwf hl
  have hUle := hwf.usedLe
  have hcnt1 : 1 ≤ s.count := by omega
  have hgle : s.generations.getD (handleIndex k) 0 < 256 := by
    rw [hgen]; exact handleGeneration_lt k
  have hgenCap : ∀ i, i < s.capacity →
      (s.generations.set (handleIndex k)
        ((s.generations.getD (handleIndex k) 0 + 1) % U32MOD)).getD i 0 ≤ 256 := by
    intro i hi
    by_cases hik : i = handleIndex k
    · subst hik
      rw [getD_set_self (by rw [hwf.gensLen]; omega)]
      rw [Nat.mod_eq_of_lt (by simp only [U32MOD]; omega)]
      omega
    · rw [getD_set_ne (Ne.symm hik)]
      exact hwf.genCap i hi
  by_cases hdl : s.indices.getD (handleIndex k) 0 = s.count - 1
  · -- removed element is the last dense element: no swap
    rw [remove_eq_last hv hdl]
    refine ⟨?_, ?_, ?_, ?_, ?_, ?_, ?_, ?_, ?_, ?_, ?_, ?_, ?_, ?_⟩
    · simp only [List.length_take, hwf.valuesLen]
      omega
    · simp [hwf.indicesLen]
    · simp [hwf.gensLen]
    · exact hwf.eraseLen
    · show s.count - 1 ≤ s.capacity
      omega
    · exact hwf.capLt
    · exact hgenCap
    · show s.count - 1 + (handleIndex k :: fl).length ≤ s.capacity
      simp only [List.length_cons]
      omega
    · show freeChain _ (handleIndex k) (handleIndex k :: fl)
      refine ⟨rfl, ?_⟩
      show freeChain _ ((s.indices.set (handleIndex k) s.freeHead).getD (handleIndex k) 0) fl
      rw [getD_set_self (by rw [hwf.indicesLen]; omega)]
      refine freeChain_congr ?_ hwf.chain
      intro mm hm
      apply getD_set_ne
      intro he
      subst he
      exact hifl hm
    · exact List.nodup_cons.mpr ⟨hifl, hwf.nodup⟩
    · intro mm hm
      show mm < s.count - 1 + (handleIndex k :: fl).length
      simp only [List.length_cons]
      rcases List.mem_cons.mp hm with rfl | hm'
      · omega
      · have := hwf.flLt mm hm'
        omega
    · intro i hiU2 hifl2
      have hiU3 : i < s.count - 1 + (handleIndex k :: fl).length := hiU2
      simp only [List.length_cons] at hiU3
      rw [List.mem_cons] at hifl2
      push_neg at hifl2
      have hold := hwf.live i (by omega) hifl2.2
      have hdi : s.indices.getD i 0 ≠ s.count - 1 := by
        intro he
        apply hifl2.1
        calc i = s.erase.getD (s.indices.getD i 0) 0 := hold.2.symm
          _ = s.erase.getD (s.indices.getD (handleIndex k) 0) 0 := by rw [he, ← hdl]
          _ = handleIndex k := hl.2
      show (s.indices.set (handleIndex k) s.freeHead).getD i 0 < s.count - 1 ∧
        s.erase.getD ((s.indices.set (handleIndex k) s.freeHead).getD i 0) 0 = i
      rw [getD_set_ne (Ne.symm hifl2.1)]
      exact ⟨by omega, hold.2⟩
    · intro i hge hlt
      have hge2 : s.count - 1 + (handleIndex k :: fl).length ≤ i := hge
      have hlt2 : i < s.capacity := hlt
      simp only [List.length_cons] at hge2
      show (s.indices.set (handleIndex k) s.freeHead).getD i 0 = U32MAX
      rw [getD_set_ne (by omega)]
      exact hwf.virgin i (by omega) hlt2
    · intro d hd
      have hd2 : d < s.count - 1 := hd
      have hold := hwf.dense d (by omega)
      have hne2 : s.erase.getD d 0 ≠ handleIndex k := by
        intro he
        have h3 := hold.2.2
        rw [he, hdl] at h3
        omega
      show s.erase.getD d 0 < s.count - 1 + (handleIndex k :: fl).length ∧
        s.erase.getD d 0 ∉ handleIndex k :: fl ∧
        (s.indices.set (handleIndex k) s.freeHead).getD (s.erase.getD d 0) 0 = d
      simp only [List.length_cons]
      refine ⟨by omega, ?_, ?_⟩
      · rw [List.mem_cons]
        push_neg
        exact ⟨hne2, hold.2.1⟩
      · rw [getD_set_ne (Ne.symm hne2)]
        exact hold.2.2
  · -- swap-and-pop: the last dense element moves into the vacated slot
    have hdense := hwf.dense (s.count - 1) (by omega)
    have hmk : s.erase.getD (s.count - 1) 0 ≠ handleIndex k := by
      intro he
      apply hdl
      rw [← he]
      exact hdense.2.2
    rw [remove_eq_swap hv hdl]
    cases ho : s.values[s.count - 1]? with
    | none =>
      exfalso
      rw [List.getElem?_eq_getElem (by rw [hwf.valuesLen]; omega)] at ho
      exact Option.noConfusion ho
    | some x =>
      refine ⟨?_, ?_, ?_, ?_, ?_, ?_, ?_, ?_, ?_, ?_, ?_, ?_, ?_, ?_⟩
      · show (List.take (s.count - 1)
          (s.values.set (s.indices.getD (handleIndex k) 0) x)).length = s.count - 1
        simp only [List.length_take, List.length_set, hwf.valuesLen]
        omega
      · simp [hwf.indicesLen]
      · simp [hwf.gensLen]
      · simp [hwf.eraseLen]
      · show s.count - 1 ≤ s.capacity
        omega
      · exact hwf.capLt
      · exact hgenCap
      · show s.count - 1 + (handleIndex k :: fl).length ≤ s.capacity
        simp only [List.length_cons]
        omega
      · show freeChain _ (handleIndex k) (handleIndex k :: fl)
        refine ⟨rfl, ?_⟩
        show freeChain _
          (((s.indices.set (s.erase.getD (s.count - 1) 0)
            (s.indices.getD (handleIndex k) 0)).set (handleIndex k)
              s.freeHead).getD (handleIndex k) 0) fl
        rw [getD_set_self (by simp only [List.length_set]; rw [hwf.indicesLen]; omega)]
        refine freeChain_congr ?_ hwf.chain
        intro mm hm
        rw [getD_set_ne (fun he => hifl (by rw [he]; exact hm)),
          getD_set_ne (fun he => hdense.2.1 (by rw [he]; exact hm))]
      · exact List.nodup_cons.mpr ⟨hifl, hwf.nodup⟩
      · intro mm hm
        show mm < s.count - 1 + (handleIndex k :: fl).length
        simp only [List.length_cons]
        rcases List.mem_cons.mp hm with rfl | hm'
        · omega
        · have := hwf.flLt mm hm'
          omega
      · intro i hiU2 hifl2
        have hiU3 : i < s.count - 1 + (handleIndex k :: fl).length := hiU2
        simp only [List.length_cons] at hiU3
        rw [List.mem_cons] at hifl2
        push_neg at hifl2
        show ((s.indices.set (s.erase.getD (s.count - 1) 0)
            (s.indices.getD (handleIndex k) 0)).set (handleIndex k)
              s.freeHead).getD i 0 < s.count - 1 ∧
          (s.erase.set (s.indices.getD (handleIndex k) 0)
            (s.erase.getD (s.count - 1) 0)).getD
            (((s.indices.set (s.erase.getD (s.count - 1) 0)
              (s.indices.getD (handleIndex k) 0)).set (handleIndex k)
                s.freeHead).getD i 0) 0 = i
        rw [getD_set_ne (Ne.symm hifl2.1)]
        by_cases him : i = s.erase.getD (s.count - 1) 0
        · subst him
          rw [getD_set_self (by rw [hwf.indicesLen]; omega)]
          refine ⟨by omega, ?_⟩
          rw [getD_set_self (by rw [hwf.eraseLen]; omega)]
        · have hold := hwf.live i (by omega) hifl2.2
          rw [getD_set_ne (Ne.symm him)]
          have hdid : s.indices.getD i 0 ≠ s.indices.getD (handleIndex k) 0 := by
            intro he
            apply hifl2.1
            calc i = s.erase.getD (s.indices.getD i 0) 0 := hold.2.symm
              _ = s.erase.getD (s.indices.getD (handleIndex k) 0) 0 := by rw [he]
              _ = handleIndex k := hl.2
          have hdil : s.indices.getD i 0 ≠ s.count - 1 := by
            intro he
            apply him
            calc i = s.erase.getD (s.indices.getD i 0) 0 := hold.2.symm
              _ = s.erase.getD (s.count - 1) 0 := by rw [he]
          refine ⟨by omega, ?_⟩
          rw [getD_set_ne (Ne.symm hdid)]
          exact hold.2
      · intro i hge hlt
        have hge2 : s.count - 1 + (handleIndex k :: fl).length ≤ i := hge
        have hlt2 : i < s.capacity := hlt
        simp only [List.length_cons] at hge2
        show ((s.indices.set (s.erase.getD (s.count - 1) 0)
            (s.indices.getD (handleIndex k) 0)).set (handleIndex k)
              s.freeHead).getD i 0 = U32MAX
        rw [getD_set_ne (by omega), getD_set_ne (by omega)]
        exact hwf.virgin i (by omega) hlt2
      · intro d hd
        have hd2 : d < s.count - 1 := hd
        show (s.erase.set (s.indices.getD (handleIndex k) 0)
            (s.erase.getD (s.count - 1) 0)).getD d 0 <
              s.count - 1 + (handleIndex k :: fl).length ∧
          (s.erase.set (s.indices.getD (handleIndex k) 0)
            (s.erase.getD (s.count - 1) 0)).getD d 0 ∉ handleIndex k :: fl ∧
          ((s.indices.set (s.erase.getD (s.count - 1) 0)
            (s.indices.getD (handleIndex k) 0)).set (handleIndex k)
              s.freeHead).getD ((s.erase.set (s.indices.getD (handleIndex k) 0)
                (s.erase.getD (s.count - 1) 0)).getD d 0) 0 = d
        simp only [List.length_cons]
        by_cases hdd : d = s.indices.getD (handleIndex k) 0
        · subst hdd
          rw [getD_set_self (by rw [hwf.eraseLen]; omega)]
          refine ⟨by omega, ?_, ?_⟩
          · rw [List.mem_cons]
            push_neg
            exact ⟨hmk, hdense.2.1⟩
          · rw [getD_set_ne (Ne.symm hmk),
              getD_set_self (by rw [hwf.indicesLen]; omega)]
        · have hold := hwf.dense d (by omega)
          rw [getD_set_ne (Ne.symm hdd)]
          have hik : s.erase.getD d 0 ≠ handleIndex k := by
            intro he
            apply hdd
            rw [← hold.2.2, he]
          have him : s.erase.getD d 0 ≠ s.erase.getD (s.count - 1) 0 := by
            intro he
            have h3 := hdense.2.2
            rw [← he, hold.2.2] at h3
            omega
          refine ⟨by omega, ?_, ?_⟩
          · rw [List.mem_cons]
            push_neg
            exact ⟨hik, hold.2.1⟩
          · rw [getD_set_ne (Ne.symm hik), getD_set_ne (Ne.symm him)]
            exact hold.2.2

/-- Removing one live element leaves every other live handle's validity,
value, and liveness untouched (swap-and-pop frame property). -/
theorem remove_frame {V : Type} {s : SlotMap V} {fl : List Nat} {k h' : Nat}
    (hwf : SMWF s fl) (hlh : slotLive s (handleIndex h'))
    (hlk : slotLive s (handleIndex k)) (hv : slotMapIsValid s k = true)
    (hkh : handleIndex k ≠ handleIndex h') :
    slotMapIsValid (slotMapRemove s k) h' = slotMapIsValid s h' ∧
    slotMapGet (slotMapRemove s k) h' = slotMapGet s h' ∧
    slotLive (slotMapRemove s k) (handleIndex h') := by
  obtain ⟨hvh, hcapk, hgenk, hnMk, hdck⟩ := (isValid_iff s k).mp hv
  obtain ⟨hiU, hifl, hdi⟩ := slotLive_spec hwf hlh
  have hUle := hwf.usedLe
  have hcapLt := hwf.capLt
  have hcnt1 : 1 ≤ s.count := by omega
  have hicap : handleIndex h' < s.capacity := by omega
  have hdine : s.indices.getD (handleIndex h') 0 ≠
      s.indices.getD (handleIndex k) 0 := by
    intro he
    apply hkh
    calc handleIndex k = s.erase.getD (s.indices.getD (handleIndex k) 0) 0 :=
        hlk.2.symm
      _ = s.erase.getD (s.indices.getD (handleIndex h') 0) 0 := by rw [he]
      _ = handleIndex h' := hlh.2
  have hgeq : ∀ sg, (s.generations.set (handleIndex k) sg).getD
      (handleIndex h') 0 = s.generations.getD (handleIndex h') 0 :=
    fun sg => getD_set_ne hkh
  by_cases hdl : s.indices.getD (handleIndex k) 0 = s.count - 1
  · -- no swap
    have hdine2 : s.indices.getD (handleIndex h') 0 ≠ s.count - 1 := by
      rw [← hdl]; exact hdine
    rw [remove_eq_last hv hdl]
    have hieq : (s.indices.set (handleIndex k) s.freeHead).getD
        (handleIndex h') 0 = s.indices.getD (handleIndex h') 0 :=
      getD_set_ne hkh
    have hvalid : slotMapIsValid { s with
        count := s.count - 1
        values := s.values.take (s.count - 1)
        generations := s.generations.set (handleIndex k)
          ((s.generations.getD (handleIndex k) 0 + 1) % U32MOD)
        indices := s.indices.set (handleIndex k) s.freeHead
        freeHead := handleIndex k } h' = slotMapIsValid s h' := by
      rw [Bool.eq_iff_iff, isValid_iff, isValid_iff]
      show (handleIsValid h' = true ∧ handleIndex h' < s.capacity ∧
          (s.generations.set _ _).getD _ 0 = handleGeneration h' ∧
          (s.indices.set _ _).getD _ 0 ≠ U32MAX ∧
          (s.indices.set _ _).getD _ 0 < s.count - 1) ↔ _
      rw [hieq, hgeq]
      constructor
      · rintro ⟨a, b, c, d, e⟩
        exact ⟨a, b, c, d, by omega⟩
      · rintro ⟨a, b, c, d, e⟩
        exact ⟨a, b, c, d, by omega⟩
    refine ⟨hvalid, ?_, ?_⟩
    · rw [get_eq_ite, get_eq_ite, hvalid]
      by_cases hvv : slotMapIsValid s h' = true
      · rw [if_pos hvv, if_pos hvv]
        show (List.take (s.count - 1) s.values)[(s.indices.set (handleIndex k)
          s.freeHead).getD (handleIndex h') 0]? = _
        rw [hieq, List.getElem?_take_of_lt (by omega)]
      · rw [Bool.not_eq_true] at hvv
        rw [hvv]
        simp
    · refine ⟨?_, ?_⟩
      · show (s.indices.set (handleIndex k) s.freeHead).getD
          (handleIndex h') 0 < s.count - 1
        rw [hieq]
        omega
      · show s.erase.getD ((s.indices.set (handleIndex k) s.freeHead).getD
          (handleIndex h') 0) 0 = handleIndex h'
        rw [hieq]
        exact hlh.2
  · -- swap-and-pop
    have hdense := hwf.dense (s.count - 1) (by omega)
    rw [remove_eq_swap hv hdl]
    cases ho : s.values[s.count - 1]? with
    | none =>
      exfalso
      rw [List.getElem?_eq_getElem (by rw [hwf.valuesLen]; omega)] at ho
      exact Option.noConfusion ho
    | some x =>
      by_cases him : handleIndex h' = s.erase.getD (s.count - 1) 0
      · -- h' owns the moved (last) element
        have hdilast : s.indices.getD (handleIndex h') 0 = s.count - 1 := by
          rw [him]; exact hdense.2.2
        have hieq : ((s.indices.set (s.erase.getD (s.count - 1) 0)
            (s.indices.getD (handleIndex k) 0)).set (handleIndex k)
              s.freeHead).getD (handleIndex h') 0 =
            s.indices.getD (handleIndex k) 0 := by
          rw [getD_set_ne hkh, him,
            getD_set_self (by rw [hwf.indicesLen]; omega)]
        have hvalid : slotMapIsValid { s with
            count := s.count - 1
            values := List.take (s.count - 1)
              (s.values.set (s.indices.getD (handleIndex k) 0) x)
            generations := s.generations.set (handleIndex k)
              ((s.generations.getD (handleIndex k) 0 + 1) % U32MOD)
            indices := (s.indices.set (s.erase.getD (s.count - 1) 0)
              (s.indices.getD (handleIndex k) 0)).set (handleIndex k) s.freeHead
            freeHead := handleIndex k
            erase := s.erase.set (s.indices.getD (handleIndex k) 0)
              (s.erase.getD (s.count - 1) 0) } h' = slotMapIsValid s h' := by
          rw [Bool.eq_iff_iff, isValid_iff, isValid_iff]
          show (handleIsValid h' = true ∧ handleIndex h' < s.capacity ∧
              (s.generations.set _ _).getD _ 0 = handleGeneration h' ∧
              ((s.indices.set _ _).set _ _).getD _ 0 ≠ U32MAX ∧
              ((s.indices.set _ _).set _ _).getD _ 0 < s.count - 1) ↔ _
          rw [hieq, hgeq]
          have hcap2 : s.capacity < 4294967296 := hcapLt
          constructor
          · rintro ⟨a, b, c, d1, d2⟩
            refine ⟨a, b, c, ?_, ?_⟩
            · rw [hdilast]
              show s.count - 1 ≠ U32MAX
              simp only [U32MAX]
              omega
            · rw [hdilast]
              omega
          · rintro ⟨a, b, c, d1, d2⟩
            refine ⟨a, b, c, ?_, ?_⟩
            · exact hnMk
            · omega
        refine ⟨hvalid, ?_, ?_⟩
        · rw [get_eq_ite, get_eq_ite, hvalid]
          by_cases hvv : slotMapIsValid s h' = true
          · rw [if_pos hvv, if_pos hvv]
            show (List.take (s.count - 1) (s.values.set
              (s.indices.getD (handleIndex k) 0) x))[((s.indices.set _ _).set _
                _).getD (handleIndex h') 0]? = s.values[s.indices.getD
                  (handleIndex h') 0]?
            rw [hieq, List.getElem?_take_of_lt (by omega),
              List.getElem?_set_self (by rw [hwf.valuesLen]; omega), hdilast]
            exact ho.symm
          · rw [Bool.not_eq_true] at hvv
            rw [hvv]
            simp
        · refine ⟨?_, ?_⟩
          · show ((s.indices.set _ _).set _ _).getD (handleIndex h') 0 <
              s.count - 1
            rw [hieq]
            omega
          · show (s.erase.set (s.indices.getD (handleIndex k) 0)
              (s.erase.getD (s.count - 1) 0)).getD (((s.indices.set _ _).set _
                _).getD (handleIndex h') 0) 0 = handleIndex h'
            rw [hieq, getD_set_self (by rw [hwf.eraseLen]; omega), him]
      · -- h' owns neither the removed nor the moved element
        have hdil : s.indices.getD (handleIndex h') 0 ≠ s.count - 1 := by
          intro he
          apply him
          calc handleIndex h' =
              s.erase.getD (s.indices.getD (handleIndex h') 0) 0 := hlh.2.symm
            _ = s.erase.getD (s.count - 1) 0 := by rw [he]
        have hieq : ((s.indices.set (s.erase.getD (s.count - 1) 0)
            (s.indices.getD (handleIndex k) 0)).set (handleIndex k)
              s.freeHead).getD (handleIndex h') 0 =
            s.indices.getD (handleIndex h') 0 := by
          rw [getD_set_ne hkh, getD_set_ne (Ne.symm him)]
        have hvalid : slotMapIsValid { s with
            count := s.count - 1
            values := List.take (s.count - 1)
              (s.values.set (s.indices.getD (handleIndex k) 0) x)
            generations := s.generations.set (handleIndex k)
              ((s.generations.getD (handleIndex k) 0 + 1) % U32MOD)
            indices := (s.indices.set (s.erase.getD (s.count - 1) 0)
              (s.indices.getD (handleIndex k) 0)).set (handleIndex k) s.freeHead
            freeHead := handleIndex k
            erase := s.erase.set (s.indices.getD (handleIndex k) 0)
              (s.erase.getD (s.count - 1) 0) } h' = slotMapIsValid s h' := by
          rw [Bool.eq_iff_iff, isValid_iff, isValid_iff]
          show (handleIsValid h' = true ∧ handleIndex h' < s.capacity ∧
              (s.generations.set _ _).getD _ 0 = handleGeneration h' ∧
              ((s.indices.set _ _).set _ _).getD _ 0 ≠ U32MAX ∧
              ((s.indices.set _ _).set _ _).getD _ 0 < s.count - 1) ↔ _
          rw [hieq, hgeq]
          constructor
          · rintro ⟨a, b, c, d, _⟩
            exact ⟨a, b, c, d, by omega⟩
          · rintro ⟨a, b, c, d, _⟩
            exact ⟨a, b, c, d, by omega⟩
        refine ⟨hvalid, ?_, ?_⟩
        · rw [get_eq_ite, get_eq_ite, hvalid]
          by_cases hvv : slotMapIsValid s h' = true
          · rw [if_pos hvv, if_pos hvv]
            show (List.take (s.count - 1) (s.values.set
              (s.indices.getD (handleIndex k) 0) x))[((s.indices.set _ _).set _
                _).getD (handleIndex h') 0]? = s.values[s.indices.getD
                  (handleIndex h') 0]?
            rw [hieq, List.getElem?_take_of_lt (by omega),
              List.getElem?_set_ne hdine.symm]
          · rw [Bool.not_eq_true] at hvv
            rw [hvv]
            simp
        · refine ⟨?_, ?_⟩
          · show ((s.indices.set _ _).set _ _).getD (handleIndex h') 0 <
              s.count - 1
            rw [hieq]
            omega
          · show (s.erase.set (s.indices.getD (handleIndex k) 0)
              (s.erase.getD (s.count - 1) 0)).getD (((s.indices.set _ _).set _
                _).getD (handleIndex h') 0) 0 = handleIndex h'
            rw [hieq, getD_set_ne hdine.symm]
            exact hlh.2

/-!
## Generation evolution

The stored generation counters move only in one direction: `remove`
increments the removed slot's counter by exactly one (the increment only
fires when the stored value equals the presented handle's 8-bit
generation field, which is below 256, so the `uint32_t` increment can
never wrap), growth copies counters forward (fresh slots start at 0),
and no other operation touches them.
-/

theorem remove_gens {V : Type} (s : SlotMap V) (k i : Nat) :
    (slotMapRemove s k).generations.getD i 0 = s.generations.getD i 0 ∨
    (i = handleIndex k ∧ s.generations.getD i 0 = handleGeneration k ∧
      s.generations.getD i 0 < 256 ∧
      (slotMapRemove s k).generations.getD i 0 = s.generations.getD i 0 + 1) := by
  by_cases hv : slotMapIsValid s k = true
  · have hgen := ((isValid_iff s k).mp hv).2.2.1
    have hglt : s.generations.getD (handleIndex k) 0 < 256 := by
      rw [hgen]; exact handleGeneration_lt k
    have hmod : (s.generations.getD (handleIndex k) 0 + 1) % U32MOD =
        s.generations.getD (handleIndex k) 0 + 1 :=
      Nat.mod_eq_of_lt (by simp only [U32MOD]; omega)
    have hgens2 : (slotMapRemove s k).generations =
        s.generations.set (handleIndex k)
          ((s.generations.getD (handleIndex k) 0 + 1) % U32MOD) := by
      by_cases hdl : s.indices.getD (handleIndex k) 0 = s.count - 1
      · rw [remove_eq_last hv hdl]
      · rw [remove_eq_swap hv hdl]
    rw [hgens2]
    by_cases hik : i = handleIndex k
    · subst hik
      by_cases hlen : handleIndex k < s.generations.length
      · right
        exact ⟨rfl, hgen, hglt, by rw [getD_set_self hlen, hmod]⟩
      · left
        rw [List.set_eq_of_length_le (by omega)]
    · left
      exact getD_set_ne (Ne.symm hik)
  · left
    rw [remove_eq_of_invalid (Bool.not_eq_true _ ▸ hv)]

theorem remove_capacity {V : Type} (s : SlotMap V) (k : Nat) :
    (slotMapRemove s k).capacity = s.capacity := by
  by_cases hv : slotMapIsValid s k = true
  · by_cases hdl : s.indices.getD (handleIndex k) 0 = s.count - 1
    · rw [remove_eq_last hv hdl]
    · rw [remove_eq_swap hv hdl]
  · rw [remove_eq_of_invalid (Bool.not_eq_true _ ▸ hv)]

theorem insertTail_gens_cap {V : Type} {s₁ : SlotMap V} {v : V}
    {o : Bool × Bool × Bool × Bool} {h : Nat} {s₂ : SlotMap V}
    (ht : slotMapInsertTail s₁ v o = .ok (h, s₂)) :
    (∀ i, s₂.generations.getD i 0 = s₁.generations.getD i 0) ∧
    s₁.capacity ≤ s₂.capacity := by
  unfold slotMapInsertTail at ht
  dsimp only at ht
  split_ifs at ht with hfh hge
  · obtain ⟨h1, h2⟩ := Prod.mk.injEq .. ▸ (Except.ok.inj ht)
    subst h2
    exact ⟨fun i => rfl, Nat.le_refl _⟩
  · revert ht
    cases hg : slotMapGrow s₁ o.1 o.2.1 o.2.2.1 o.2.2.2 with
    | error e => intro ht; exact Except.noConfusion ht
    | ok s' =>
      intro ht
      have hcase := grow_ok_cases hg
      have hgens : ∀ i, s'.generations.getD i 0 = s₁.generations.getD i 0 := by
        intro i
        rcases hcase with rfl | hgs
        · rfl
        · exact hgs.gens_getD i
      have hcap : s₁.capacity ≤ s'.capacity := by
        rcases hcase with rfl | hgs
        · exact Nat.le_refl _
        · exact hgs.capLe
      dsimp only at ht
      split_ifs at ht with hge2
      · obtain ⟨h1, h2⟩ := Prod.mk.injEq .. ▸ (Except.ok.inj ht)
        subst h2
        exact ⟨hgens, hcap⟩
      · obtain ⟨h1, h2⟩ := Prod.mk.injEq .. ▸ (Except.ok.inj ht)
        subst h2
        exact ⟨hgens, hcap⟩
  · obtain ⟨h1, h2⟩ := Prod.mk.injEq .. ▸ (Except.ok.inj ht)
    subst h2
    exact ⟨fun i => rfl, Nat.le_refl _⟩

theorem insert_gens_cap {V : Type} {s : SlotMap V} {v : V}
    {oracle : List (Bool × Bool × Bool × Bool)} {h : Nat} {s₂ : SlotMap V}
    (hins : slotMapInsert s v oracle = .ok (h, s₂)) :
    (∀ i, s₂.generations.getD i 0 = s.generations.getD i 0) ∧
    s.capacity ≤ s₂.capacity := by
  unfold slotMapInsert at hins
  dsimp only at hins
  split_ifs at hins with htop
  · revert hins
    cases hg : slotMapGrow s (oracle.getD 0 (false, false, false, false)).1
      (oracle.getD 0 (false, false, false, false)).2.1
      (oracle.getD 0 (false, false, false, false)).2.2.1
      (oracle.getD 0 (false, false, false, false)).2.2.2 with
    | error e => intro hins; exact Except.noConfusion hins
    | ok s₁ =>
      intro hins
      have hcase := grow_ok_cases hg
      have hgens : ∀ i, s₁.generations.getD i 0 = s.generations.getD i 0 := by
        intro i
        rcases hcase with rfl | hgs
        · rfl
        · exact hgs.gens_getD i
      have hcap : s.capacity ≤ s₁.capacity := by
        rcases hcase with rfl | hgs
        · exact Nat.le_refl _
        · exact hgs.capLe
      dsimp only at hins
      split_ifs at hins with hfull
      · obtain ⟨h1, h2⟩ := Prod.mk.injEq .. ▸ (Except.ok.inj hins)
        subst h2
        exact ⟨hgens, hcap⟩
      · obtain ⟨hg2, hc2⟩ := insertTail_gens_cap hins
        exact ⟨fun i => (hg2 i).trans (hgens i), Nat.le_trans hcap hc2⟩
  · exact insertTail_gens_cap hins

/-!
## Operation sequences

`SMStepAny` is an arbitrary completed slot-map mutation (any insert, any
remove, including stale and garbage handles).  `SMStepOther avoid` is the
restricted form used by the frame claims: any completed insert, or the
removal of a live element through a 32-bit handle other than `avoid`
("inserts and removes of other elements").
-/

inductive SMStepAny {V : Type} : SlotMap V → SlotMap V → Prop where
  | insert (s : SlotMap V) (v : V) (oracle : List (Bool × Bool × Bool × Bool))
      (h : Nat) (s₂ : SlotMap V) :
      slotMapInsert s v oracle = .ok (h, s₂) → SMStepAny s s₂
  | remove (s : SlotMap V) (k : Nat) : SMStepAny s (slotMapRemove s k)

inductive SMStepOther {V : Type} (avoid : Nat) : SlotMap V → SlotMap V → Prop where
  | insert (s : SlotMap V) (v : V) (oracle : List (Bool × Bool × Bool × Bool))
      (h : Nat) (s₂ : SlotMap V) :
      slotMapInsert s v oracle = .ok (h, s₂) → SMStepOther avoid s s₂
  | remove (s : SlotMap V) (k : Nat) (hk : k < U32MOD)
      (hl : slotLive s (handleIndex k)) (hv : slotMapIsValid s k = true)
      (hne : k ≠ avoid) : SMStepOther avoid s (slotMapRemove s k)

theorem stepAny_gens_cap_mono {V : Type} {s t : SlotMap V} (hst : SMStepAny s t) :
    (∀ i, s.generations.getD i 0 ≤ t.generations.getD i 0) ∧
    s.capacity ≤ t.capacity := by
  cases hst with
  | insert v oracle h s₂ hins =>
    obtain ⟨hg, hc⟩ := insert_gens_cap hins
    exact ⟨fun i => (hg i).ge, hc⟩
  | remove k =>
    refine ⟨fun i => ?_, (remove_capacity s k).ge⟩
    rcases remove_gens s k i with heq | ⟨_, _, heq⟩ <;> omega

theorem stepsAny_gens_cap_mono {V : Type} {s t : SlotMap V}
    (hst : Relation.ReflTransGen SMStepAny s t) :
    (∀ i, s.generations.getD i 0 ≤ t.generations.getD i 0) ∧
    s.capacity ≤ t.capacity := by
  induction hst with
  | refl => exact ⟨fun i => Nat.le_refl _, Nat.le_refl _⟩
  | tail hsteps hstep ih =>
    obtain ⟨hg, hc⟩ := stepAny_gens_cap_mono hstep
    exact ⟨fun i => Nat.le_trans (ih.1 i) (hg i), Nat.le_trans ih.2 hc⟩

theorem get_some_valid {V : Type} {s : SlotMap V} {h : Nat} {v : V}
    (hget : slotMapGet s h = some v) : slotMapIsValid s h = true := by
  rw [get_eq_ite] at hget
  by_cases hv : slotMapIsValid s h = true
  · exact hv
  · rw [Bool.not_eq_true] at hv
    rw [hv] at hget
    simp at hget

/-- Two 32-bit handles that both pass the generation check on the same
slot are equal. -/
theorem valid_same_slot_eq {V : Type} {s : SlotMap V} {k h : Nat}
    (hk : k < U32MOD) (hh : h < U32MOD)
    (hvk : slotMapIsValid s k = true) (hvh : slotMapIsValid s h = true)
    (hidx : handleIndex k = handleIndex h) : k = h := by
  obtain ⟨_, _, hgk, _, _⟩ := (isValid_iff s k).mp hvk
  obtain ⟨_, _, hgh, _, _⟩ := (isValid_iff s h).mp hvh
  have hg : handleGeneration k = handleGeneration h := by
    rw [← hgk, hidx, hgh]
  rw [← handle_eta hk, ← handle_eta hh, hidx, hg]

/-- Invariant carried along benign operation sequences: the map stays
well-formed and the tracked live handle keeps its value. -/
theorem stepsOther_preserve {V : Type} {h : Nat} {v : V} {t t' : SlotMap V}
    (hsteps : Relation.ReflTransGen (SMStepOther h) t t') (hh : h < U32MOD)
    (inv : SMGood t ∧ slotLive t (handleIndex h) ∧ slotMapGet t h = some v) :
    SMGood t' ∧ slotLive t' (handleIndex h) ∧ slotMapGet t' h = some v := by
  induction hsteps with
  | refl => exact inv
  | tail hsteps hstep ih =>
    obtain ⟨⟨fl, hwf⟩, hlive, hget⟩ := ih
    cases hstep with
    | insert w oracle h₂ c hins =>
      obtain ⟨hv2, hg2, hl2⟩ := insert_preserves_live hwf hlive hins
      exact ⟨insert_good hwf hins, hl2, by rw [hg2]; exact hget⟩
    | remove k hk hlk hvk hne =>
      have hkh : handleIndex k ≠ handleIndex h := by
        intro he
        exact hne (valid_same_slot_eq hk hh hvk (get_some_valid hget) he)
      obtain ⟨hv2, hg2, hl2⟩ := remove_frame hwf hlive hlk hvk hkh
      exact ⟨⟨handleIndex k :: fl, remove_wf hwf hlk hvk⟩, hl2,
        by rw [hg2]; exact hget⟩

/-!
## Claim C1 — slot-map round trip

`smCycle` performs one insert immediately followed by the removal of the
returned handle; iterating it on a one-slot map drives that slot's stored
generation counter up by one per cycle, so after 256 cycles the stored
counter is 256 while every handle's 8-bit generation field wraps to 0.
-/

def smCycle (s : SlotMap Nat) (v : Nat) : SlotMap Nat :=
  match slotMapInsert s v [] with
  | .ok r => slotMapRemove r.2 r.1
  | .error _ => s

def c1CycleMap : Nat → SlotMap Nat
  | 0 => slotMapCreate Nat 1
  | n + 1 => smCycle (c1CycleMap n) 7

set_option maxRecDepth 8000 in
/-- C1, counterexample.  On the slot map reached from `slotMapCreate` by 256
insert/remove cycles, the next insert succeeds and returns the non-sentinel
handle `handleMake 0 256 = 0` (the stored generation 256 is packed through
an 8-bit field, wrapping to 0), yet `get` on that fresh handle immediately
returns null and `isValid` is false: the inserted value 7 is unreachable,
refuting "if insert(v) succeeds, get on that handle returns v". -/
theorem c1_roundtrip_counterexample :
    slotMapInsert (c1CycleMap 256) 7 [] =
      .ok (handleMake 0 256,
        { capacity := 1, count := 1, freeHead := U32MAX, values := [7],
          indices := [0], generations := [256], erase := [0] }) ∧
    handleMake 0 256 ≠ U32MAX ∧
    slotMapIsValid
      { capacity := 1, count := 1, freeHead := U32MAX, values := [7],
        indices := [0], generations := [256], erase := [0] }
      (handleMake 0 256) = false ∧
    slotMapGet
      { capacity := 1, count := 1, freeHead := U32MAX, values := [7],
        indices := [0], generations := [256], erase := [0] }
      (handleMake 0 256) = none := by
  exact ⟨rfl, by decide, rfl, rfl⟩

/-- C1 (amended): round trip holds for every insert whose chosen slot has a
stored generation below 256 (true for every slot that has been vacated at
most 255 times) and a sparse index below `2^24`: if the insert succeeds
with a non-sentinel handle, `get` on that handle returns the inserted
value, and keeps returning it across any sequence of further completed
inserts and removals of other live elements, until the handle itself is
removed. -/
theorem c1_roundtrip_amended {V : Type} {s : SlotMap V} {fl : List Nat}
    {v : V} {oracle : List (Bool × Bool × Bool × Bool)} {h : Nat}
    {s₂ t : SlotMap V}
    (hwf : SMWF s fl) (hidx : insChoice s < HANDLE_INDEX_MOD)
    (hgen : s.generations.getD (insChoice s) 0 < 256)
    (hins : slotMapInsert s v oracle = .ok (h, s₂)) (hne : h ≠ U32MAX)
    (hsteps : Relation.ReflTransGen (SMStepOther h) s₂ t) :
    slotMapGet s₂ h = some v ∧ slotMapGet t h = some v := by
  obtain ⟨hh, hg2, hi2, hc2, hval, hccap, he2, hcap2⟩ :=
    insert_ok_handle hwf hins (Or.inl hne)
  obtain ⟨fl₂, hwf₂⟩ := insert_good hwf hins
  have hhlt : h < U32MOD := by rw [hh]; exact handleMake_lt_u32 _ _
  have hidxh : handleIndex h = insChoice s := by
    rw [hh, handleIndex_make]
    exact Nat.mod_eq_of_lt hidx
  have hgenh : handleGeneration h = s.generations.getD (insChoice s) 0 := by
    rw [hh, handleGeneration_make]
    exact Nat.mod_eq_of_lt (by simp only [HANDLE_GEN_MOD]; omega)
  have hcntM : s.count < U32MAX := by
    have h1 := hwf₂.countLe
    have h2 : s₂.capacity < U32MOD := hwf₂.capLt
    rw [hc2] at h1
    simp only [U32MOD] at h2
    simp only [U32MAX]
    omega
  have hlive : slotLive s₂ (handleIndex h) := by
    rw [hidxh]
    exact ⟨by rw [hi2, hc2]; omega, by rw [hi2]; exact he2⟩
  have hvalid : slotMapIsValid s₂ h = true := by
    rw [isValid_iff]
    refine ⟨?_, ?_, ?_, ?_, ?_⟩
    · simp only [handleIsValid, bne_iff_ne, ne_eq]
      exact hne
    · rw [hidxh]; exact hccap
    · rw [hidxh, hg2, hgenh]
    · rw [hidxh, hi2]
      simp only [U32MAX] at hcntM ⊢
      omega
    · rw [hidxh, hi2, hc2]; omega
  have hget : slotMapGet s₂ h = some v := by
    rw [get_eq_ite, hvalid, if_pos rfl, hidxh, hi2]
    exact hval
  exact ⟨hget, (stepsOther_preserve hsteps hhlt ⟨⟨fl₂, hwf₂⟩, hlive, hget⟩).2.2⟩

/-- C1 witness: the amended round-trip theorem applied to the first insert
on a fresh two-slot map. -/
theorem c1_roundtrip_amended_witness :
    slotMapGet
      { capacity := 2, count := 1, freeHead := U32MAX, values := [5],
        indices := [0, U32MAX], generations := [0, 0], erase := [0, 0] }
      0 = some (5 : Nat) :=
  (c1_roundtrip_amended (create_wf Nat 2 (by decide)) (by decide) (by decide)
    (rfl :
      slotMapInsert (slotMapCreate Nat 2) 5 [] =
        Except.ok (0,
          { capacity := 2, count := 1, freeHead := U32MAX, values := [5],
            indices := [0, U32MAX], generations := [0, 0], erase := [0, 0] }))
    (by decide) Relation.ReflTransGen.refl).2

/-!
## Claim C2 — generation invalidation
-/

/-- C2: for every valid handle `h` of a well-formed slot map, after
`remove h` (a) `isValid h` is false and `get h` is null; (b) any
subsequent insert reuses `h`'s slot (it is the free-list head) and
returns a handle with the same slot index whose generation field is
`h`'s generation plus one modulo 256; and (c) across every further
sequence of completed slot-map operations, `h` stays invalid: `isValid`
false, `get` null, and `remove` a no-op. -/
theorem c2_generation_invalidation {V : Type} {s : SlotMap V} {fl : List Nat}
    {h : Nat} (hwf : SMWF s fl) (hv : slotMapIsValid s h = true) :
    (slotMapIsValid (slotMapRemove s h) h = false ∧
      slotMapGet (slotMapRemove s h) h = none) ∧
    (∀ (v : V) (oracle : List (Bool × Bool × Bool × Bool)), ∃ h₂ s₂,
      slotMapInsert (slotMapRemove s h) v oracle = .ok (h₂, s₂) ∧
      handleIndex h₂ = handleIndex h ∧
      handleGeneration h₂ = (handleGeneration h + 1) % HANDLE_GEN_MOD) ∧
    (∀ t, Relation.ReflTransGen SMStepAny (slotMapRemove s h) t →
      slotMapIsValid t h = false ∧ slotMapGet t h = none ∧
      slotMapRemove t h = t) := by
  obtain ⟨hhv, hcap, hgen, hnM, hdc⟩ := (isValid_iff s h).mp hv
  have hglen : s.generations.length = s.capacity := hwf.gensLen
  have hglt : handleGeneration h < 256 := handleGeneration_lt h
  have hrec : (slotMapRemove s h).capacity = s.capacity ∧
      (slotMapRemove s h).count = s.count - 1 ∧
      (slotMapRemove s h).freeHead = handleIndex h ∧
      (slotMapRemove s h).generations = s.generations.set (handleIndex h)
        ((s.generations.getD (handleIndex h) 0 + 1) % U32MOD) := by
    by_cases hdl : s.indices.getD (handleIndex h) 0 = s.count - 1
    · rw [remove_eq_last hv hdl]
      exact ⟨rfl, rfl, rfl, rfl⟩
    · rw [remove_eq_swap hv hdl]
      exact ⟨rfl, rfl, rfl, rfl⟩
  obtain ⟨hc', hn', hf', hg'⟩ := hrec
  have hgD : (slotMapRemove s h).generations.getD (handleIndex h) 0 =
      handleGeneration h + 1 := by
    rw [hg', getD_set_self (by rw [hglen]; exact hcap), hgen]
    exact Nat.mod_eq_of_lt (by simp only [U32MOD]; omega)
  have hval' : slotMapIsValid (slotMapRemove s h) h = false := by
    cases hb : slotMapIsValid (slotMapRemove s h) h with
    | false => rfl
    | true =>
      obtain ⟨_, _, hgc, _, _⟩ := (isValid_iff _ h).mp hb
      rw [hgD] at hgc
      omega
  have hget' : slotMapGet (slotMapRemove s h) h = none := by
    rw [get_eq_ite, hval']
    simp
  refine ⟨⟨hval', hget'⟩, ?_, ?_⟩
  · intro v oracle
    have hcnt1 : 1 ≤ s.count := by omega
    have hcnt's : s.count - 1 < s.capacity := by
      have := hwf.countLe
      omega
    have hfne : handleIndex h ≠ U32MAX := by
      have := handleIndex_lt h
      simp only [HANDLE_INDEX_MOD] at this
      simp only [U32MAX]
      omega
    have hins : slotMapInsert (slotMapRemove s h) v oracle =
        .ok (handleMake (handleIndex h) (handleGeneration h + 1),
          (slotMapInsertAt (slotMapRemove s h) v (handleIndex h)
            ((slotMapRemove s h).indices.getD (handleIndex h) 0)).2) := by
      unfold slotMapInsert
      dsimp only
      rw [if_neg (by rw [hn', hc']; omega)]
      unfold slotMapInsertTail
      rw [if_pos (by rw [hf']; simp only [bne_iff_ne, ne_eq]; exact hfne), hf']
      unfold slotMapInsertAt
      dsimp only
      rw [hgD]
    refine ⟨_, _, hins, ?_, ?_⟩
    · rw [handleIndex_make]
      exact Nat.mod_eq_of_lt (handleIndex_lt h)
    · rw [handleGeneration_make]
  · intro t hsteps
    have hmono := (stepsAny_gens_cap_mono hsteps).1 (handleIndex h)
    rw [hgD] at hmono
    have hvalt : slotMapIsValid t h = false := by
      cases hb : slotMapIsValid t h with
      | false => rfl
      | true =>
        obtain ⟨_, _, hgc, _, _⟩ := (isValid_iff t h).mp hb
        omega
    exact ⟨hvalt, by rw [get_eq_ite, hvalt]; simp,
      remove_eq_of_invalid hvalt⟩

/-- C2 witness: the invalidation theorem applied to the one live handle of
a concrete one-slot map. -/
theorem c2_generation_invalidation_witness :
    slotMapIsValid
      (slotMapRemove (⟨1, 1, U32MAX, [9], [0], [0], [0]⟩ : SlotMap Nat) 0) 0
      = false ∧
    slotMapGet
      (slotMapRemove (⟨1, 1, U32MAX, [9], [0], [0], [0]⟩ : SlotMap Nat) 0) 0
      = none := by
  have hwf : SMWF (⟨1, 1, U32MAX, [9], [0], [0], [0]⟩ : SlotMap Nat) [] :=
    ⟨by decide, by decide, by decide, by decide, by decide, by decide,
      by decide, by decide, by decide, by decide, by decide, by decide,
      fun i h0 hi => absurd (Nat.lt_of_le_of_lt h0 hi) (by decide), by decide⟩
  exact (c2_generation_invalidation hwf (by decide)).1

/-!
## Claim C3 — growth preserves handles
-/

/-- C3: whenever a grow call completes without fault (in particular during
an insert that found `count = capacity`), every handle's validity and
`get` result are unchanged; `count`, the free-list head and the dense
values are unchanged, and either the map is left entirely as it was
(allocation failure, grow abandoned) or the arrays are replaced by the
doubled arrays with the old contents copied forward (fresh sparse entries
`UINT32_MAX`, fresh generations 0, fresh erase entries zero-filled). -/
theorem c3_growth_preserves_handles {V : Type} {s : SlotMap V}
    {o1 o2 o3 o4 : Bool} {s₂ : SlotMap V}
    (hilen : s.indices.length = s.capacity)
    (hglen : s.generations.length = s.capacity)
    (htrig : s.count = s.capacity)
    (hgrow : slotMapGrow s o1 o2 o3 o4 = .ok s₂) :
    (∀ h, slotMapIsValid s₂ h = slotMapIsValid s h ∧
      slotMapGet s₂ h = slotMapGet s h) ∧
    s₂.count = s.count ∧ s₂.freeHead = s.freeHead ∧ s₂.values = s.values ∧
    (s₂ = s ∨
      (s₂.indices = s.indices ++ List.replicate (s₂.capacity - s.capacity) U32MAX ∧
       s₂.generations = s.generations ++ List.replicate (s₂.capacity - s.capacity) 0 ∧
       s₂.erase = s.erase.take s.count ++ List.replicate (s₂.capacity - s.count) 0)) := by
  have hcase := grow_ok_cases hgrow
  refine ⟨grow_preserves_handles hcase hilen hglen, ?_, ?_, ?_, ?_⟩
  · rcases hcase with rfl | hg
    · rfl
    · exact hg.count2
  · rcases hcase with rfl | hg
    · rfl
    · exact hg.freeHead2
  · rcases hcase with rfl | hg
    · rfl
    · exact hg.values2
  · rcases hcase with rfl | hg
    · exact Or.inl rfl
    · exact Or.inr ⟨hg.indices2, hg.gens2, hg.erase2⟩

def c3Full : SlotMap Nat := ⟨1, 1, U32MAX, [7], [0], [0], [0]⟩

def c3Grown : SlotMap Nat := ⟨2, 1, U32MAX, [7], [0, U32MAX], [0, 0], [0, 0]⟩

/-- C3 witness: growth of a full one-slot map, with all four arena pushes
succeeding, preserves the handle `0` of its one live element. -/
theorem c3_growth_preserves_handles_witness :
    slotMapIsValid c3Grown 0 = slotMapIsValid c3Full 0 ∧
    slotMapGet c3Grown 0 = slotMapGet c3Full 0 :=
  (c3_growth_preserves_handles (by decide) (by decide) (by decide)
    (rfl : slotMapGrow c3Full true true true true = Except.ok c3Grown)).1 0

/-!
## Claim C4 — swap-and-pop preserves the other live handles

The counterexample trace: four inserts into a four-slot map followed by
the removal of the first two handles.  The resulting map `c4Base` holds
two live elements (slots 2 and 3, handles `2` and `3`) and its free list
is `[1, 0]` (slot 1's sparse entry is the free-list link `0`).  The
never-issued "ghost" handle `handleMake 1 1` passes every check of
`slotMapIsValidImpl` — slot 1's stored generation is 1 and its free-list
link `0` looks like a live dense index — so it is a valid handle of
`c4Base` in the spec's own sense, and removing it corrupts the map:
the value read through the still-live handle `3` changes from 40 to 30.
-/

def smIns (s : SlotMap Nat) (v : Nat) : Nat × SlotMap Nat :=
  match slotMapInsert s v [] with
  | .ok r => r
  | .error _ => (U32MAX, s)

def c4Base : SlotMap Nat :=
  slotMapRemove
    (slotMapRemove
      (smIns (smIns (smIns (smIns (slotMapCreate Nat 4) 10).2 20).2 30).2 40).2
      (handleMake 0 0))
    (handleMake 1 0)

/-- C4, counterexample.  In `c4Base` (reached by four inserts and two
removes), the handle `handleMake 3 0` was issued by the fourth insert and
is live with value 40; the ghost handle `handleMake 1 1` was never issued
but satisfies `slotMapIsValid`.  Removing the ghost handle leaves
`handleMake 3 0` valid but changes the value `get` returns through it
from 40 to 30, refuting "remove(h) leaves each of the other valid handles
valid and get on each of them returns the same value bytes" for
arbitrary valid handles. -/
theorem c4_swap_pop_counterexample :
    (smIns (smIns (smIns (smIns (slotMapCreate Nat 4) 10).2 20).2 30).2 40).1
        = handleMake 3 0 ∧
    slotMapIsValid c4Base (handleMake 1 1) = true ∧
    slotMapIsValid c4Base (handleMake 3 0) = true ∧
    slotMapGet c4Base (handleMake 3 0) = some 40 ∧
    slotMapIsValid (slotMapRemove c4Base (handleMake 1 1)) (handleMake 3 0)
      = true ∧
    slotMapGet (slotMapRemove c4Base (handleMake 1 1)) (handleMake 3 0)
      = some 30 := by
  refine ⟨rfl, rfl, rfl, rfl, rfl, rfl⟩

/-- C4 (amended): swap-and-pop preserves the other live handles, where a
handle is live when its slot actually owns a dense element (the slot's
sparse entry and the erase table are mutually inverse) — exactly the
handles `insert` has issued and not yet retired, excluding ghost handles
whose free-list link happens to pass the dense-index check.  Removing a
live 32-bit handle `h` leaves every other live 32-bit handle `h'` valid
with an unchanged `get` result, including when the removal relocates the
last dense element. -/
theorem c4_swap_pop_amended {V : Type} {s : SlotMap V} {fl : List Nat}
    {h h' : Nat} (hwf : SMWF s fl) (hh : h < U32MOD) (hh' : h' < U32MOD)
    (hvh : slotMapIsValid s h = true) (hlh : slotLive s (handleIndex h))
    (hvh' : slotMapIsValid s h' = true) (hlh' : slotLive s (handleIndex h'))
    (hne : h' ≠ h) :
    slotMapIsValid (slotMapRemove s h) h' = true ∧
    slotMapGet (slotMapRemove s h) h' = slotMapGet s h' := by
  have hkh : handleIndex h ≠ handleIndex h' := by
    intro he
    exact hne (valid_same_slot_eq hh' hh hvh' hvh he.symm)
  obtain ⟨hv2, hg2, _⟩ := remove_frame hwf hlh' hlh hvh hkh
  exact ⟨by rw [hv2]; exact hvh', hg2⟩

def c4W : SlotMap Nat := ⟨2, 2, U32MAX, [10, 20], [0, 1], [0, 0], [0, 1]⟩

/-- C4 witness: the amended theorem applied to the two live handles of a
concrete two-element map. -/
theorem c4_swap_pop_amended_witness :
    slotMapIsValid (slotMapRemove c4W 0) 1 = true ∧
    slotMapGet (slotMapRemove c4W 0) 1 = slotMapGet c4W 1 := by
  have hwf : SMWF c4W [] :=
    ⟨by decide, by decide, by decide, by decide, by decide, by decide,
      by decide, by decide, by decide, by decide, by decide, by decide,
      fun i h0 hi => absurd (Nat.lt_of_le_of_lt h0 hi) (by decide), by decide⟩
  exact c4_swap_pop_amended hwf (by decide) (by decide) (by decide) (by decide)
    (by decide) (by decide) (by decide)

/-!
## Claim C5 — growth "atomicity"
-/

def c5Map : SlotMap Nat := ⟨1, 1, U32MAX, [7], [0], [0], [0]⟩

/-- C5, the code bug.  When one of the three `arenaPushArray` calls of
`slotMapGrow` fails (here: the sparse-index array push, second of the
four allocations), the returned null pointer flows into `memset` with a
nonzero byte count before the function's combined null check runs: the
grow — and the insert that triggered it — faults instead of leaving the
map unchanged and reporting failure.  Only a failure of the first, raw
`arenaPush` (the value buffer, which has no `memset`) reaches the null
check and is handled gracefully, as the third conjunct shows. -/
theorem c5_growth_alloc_fault :
    slotMapGrow c5Map true false true true = .error () ∧
    slotMapInsert c5Map 8 [(true, false, true, true)] = .error () ∧
    slotMapGrow c5Map false true true true = .ok c5Map := by
  refine ⟨rfl, rfl, rfl⟩

/-!
## Claim C10 — the stored generation counter is full 32-bit, never reduced
-/

/-- C10: (i) a completed insert never changes any stored generation
counter, and `remove` either leaves a counter unchanged or increments
exactly the removed slot's counter by one — from a value equal to the
handle's 8-bit generation field, hence below 256, so the `uint32_t`
increment never wraps and the counter is never reduced modulo 256;
(ii) once a slot's stored counter has reached 256 it can never again
equal the 8-bit generation field of any handle, so every handle aimed at
that slot is rejected by `isValid`, `get` and `remove`; and (iii) an
insert that lands in such a slot (index below `2^24`) returns a
non-sentinel handle that is nonetheless immediately rejected by `get`,
`isValid` and `remove` on the resulting map. -/
theorem c10_generation_counter {V : Type} :
    (∀ (s : SlotMap V) (v : V) oracle (h : Nat) s₂,
      slotMapInsert s v oracle = .ok (h, s₂) →
      ∀ i, s₂.generations.getD i 0 = s.generations.getD i 0) ∧
    (∀ (s : SlotMap V) (k i : Nat),
      (slotMapRemove s k).generations.getD i 0 = s.generations.getD i 0 ∨
      (i = handleIndex k ∧ s.generations.getD i 0 = handleGeneration k ∧
        s.generations.getD i 0 < 256 ∧
        (slotMapRemove s k).generations.getD i 0 = s.generations.getD i 0 + 1)) ∧
    (∀ (s : SlotMap V) (i : Nat), 256 ≤ s.generations.getD i 0 →
      ∀ h : Nat, handleIndex h = i →
        slotMapIsValid s h = false ∧ slotMapGet s h = none ∧
        slotMapRemove s h = s) ∧
    (∀ (s : SlotMap V) (fl : List Nat) (v : V) oracle (h : Nat) s₂,
      SMWF s fl → s.generations.getD (insChoice s) 0 = 256 →
      insChoice s < HANDLE_INDEX_MOD →
      slotMapInsert s v oracle = .ok (h, s₂) → s₂.count = s.count + 1 →
      h ≠ U32MAX ∧ slotMapIsValid s₂ h = false ∧ slotMapGet s₂ h = none ∧
      slotMapRemove s₂ h = s₂) := by
  refine ⟨?_, ?_, ?_, ?_⟩
  · intro s v oracle h s₂ hins i
    exact (insert_gens_cap hins).1 i
  · intro s k i
    exact remove_gens s k i
  · intro s i hge h hidx
    have hval : slotMapIsValid s h = false := by
      cases hb : slotMapIsValid s h with
      | false => rfl
      | true =>
        obtain ⟨_, _, hgc, _, _⟩ := (isValid_iff s h).mp hb
        rw [hidx] at hgc
        have := handleGeneration_lt h
        simp only [HANDLE_GEN_MOD] at this
        omega
    exact ⟨hval, by rw [get_eq_ite, hval]; simp, remove_eq_of_invalid hval⟩
  · intro s fl v oracle h s₂ hwf hstuck hidxlt hins hsucc
    obtain ⟨hh, hg2, hi2, hc2, _, hccap, he2, _⟩ :=
      insert_ok_handle hwf hins (Or.inr hsucc)
    have h24 : insChoice s < 16777216 := by
      simp only [HANDLE_INDEX_MOD] at hidxlt
      exact hidxlt
    have hhval : h = insChoice s := by
      rw [hh, hstuck]
      simp only [handleMake, HANDLE_GEN_MOD, HANDLE_INDEX_MOD]
      omega
    have hidxh : handleIndex h = insChoice s := by
      rw [hhval]
      simp only [handleIndex, HANDLE_INDEX_MOD]
      omega
    have hneM : h ≠ U32MAX := by
      rw [hhval]
      simp only [U32MAX]
      omega
    have hval : slotMapIsValid s₂ h = false := by
      cases hb : slotMapIsValid s₂ h with
      | false => rfl
      | true =>
        obtain ⟨_, _, hgc, _, _⟩ := (isValid_iff s₂ h).mp hb
        rw [hidxh, hg2, hstuck] at hgc
        have := handleGeneration_lt h
        simp only [HANDLE_GEN_MOD] at this
        omega
    exact ⟨hneM, hval, by rw [get_eq_ite, hval]; simp,
      remove_eq_of_invalid hval⟩

/-- C10 witness: the rejection clause applied to a concrete map whose slot
0 has been vacated 256 times. -/
theorem c10_generation_counter_witness :
    slotMapIsValid (⟨1, 0, 0, [], [4294967295], [256], [0]⟩ : SlotMap Nat) 0
      = false ∧
    slotMapGet (⟨1, 0, 0, [], [4294967295], [256], [0]⟩ : SlotMap Nat) 0
      = none ∧
    slotMapRemove (⟨1, 0, 0, [], [4294967295], [256], [0]⟩ : SlotMap Nat) 0
      = ⟨1, 0, 0, [], [4294967295], [256], [0]⟩ :=
  c10_generation_counter.2.2.1 (⟨1, 0, 0, [], [4294967295], [256], [0]⟩ : SlotMap Nat)
    0 (by decide) 0 (by decide)

/-!
## Arena chain invariant

`blockOk` is the per-block portion of the spec's arena invariant (with
the auxiliary facts the proofs carry: a positive cursor, a committed
region covering the header, a positive commit granularity — all
established by `arenaCreate` and preserved by every operation).
`arenaChainWF` strings it along the chain, head (= `pCurrent`) first,
with each block's `basePos` equal to the next block's
`basePos + reserved` and the first-created block at `basePos = 0`.
`posFits blocks p` says the block `arenaPopTo` would select for target
`p` exists and has committed memory covering local offset
`p - basePos` — the condition under which popping to `p` is safe.
-/

def blockOk (b : ArenaBlock) : Prop :=
  0 < b.pos ∧ b.pos ≤ b.committed ∧ b.committed ≤ b.reserved ∧
  ARENA_HEADER_SIZE ≤ b.committed ∧ 0 < b.commitSize

instance (b : ArenaBlock) : Decidable (blockOk b) := by
  unfold blockOk; infer_instance

def arenaChainWF : List ArenaBlock → Prop
  | [] => False
  | [b] => blockOk b ∧ b.basePos = 0
  | b :: c :: rest => blockOk b ∧ b.basePos = c.basePos + c.reserved ∧
      arenaChainWF (c :: rest)

instance arenaChainWFDec :
    (blocks : List ArenaBlock) → Decidable (arenaChainWF blocks)
  | [] => by unfold arenaChainWF; infer_instance
  | [_] => by unfold arenaChainWF; infer_instance
  | _ :: c :: rest =>
    have : Decidable (arenaChainWF (c :: rest)) := arenaChainWFDec (c :: rest)
    by unfold arenaChainWF; infer_instance

def posFits (blocks : List ArenaBlock) (p : Nat) : Bool :=
  match blocks.dropWhile (fun b => decide (b.basePos ≥ p)) with
  | [] => false
  | cur :: _ => decide (p - cur.basePos ≤ cur.committed)

theorem alignPow2_ge (v : Nat) {a : Nat} (ha : 0 < a) : v ≤ alignPow2 v a := by
  unfold alignPow2
  have := Nat.mod_lt (v + (a - 1)) ha
  omega

theorem chainWF_head_ok {b : ArenaBlock} {rest : List ArenaBlock}
    (h : arenaChainWF (b :: rest)) : blockOk b := by
  cases rest with
  | nil => exact h.1
  | cons c r => exact h.1

theorem chainWF_replace_head {b b' : ArenaBlock} {rest : List ArenaBlock}
    (h : arenaChainWF (b :: rest)) (hok : blockOk b')
    (hbase : b'.basePos = b.basePos) : arenaChainWF (b' :: rest) := by
  cases rest with
  | nil => exact ⟨hok, by rw [hbase]; exact h.2⟩
  | cons c r => exact ⟨hok, by rw [hbase]; exact h.2.1, h.2.2⟩

theorem chainWF_extend {b : ArenaBlock} {cur : ArenaBlock}
    {rest : List ArenaBlock} (h : arenaChainWF (cur :: rest)) (hok : blockOk b)
    (hbase : b.basePos = cur.basePos + cur.reserved) :
    arenaChainWF (b :: cur :: rest) :=
  ⟨hok, hbase, h⟩

theorem chainWF_dropWhile {pred : ArenaBlock → Bool} :
    ∀ {blocks : List ArenaBlock} {cur : ArenaBlock} {rest : List ArenaBlock},
      arenaChainWF blocks → blocks.dropWhile pred = cur :: rest →
      arenaChainWF (cur :: rest)
  | [], _, _, h, _ => by unfold arenaChainWF at h; exact h.elim
  | b :: bs, cur, rest, h, hd => by
    rw [List.dropWhile_cons] at hd
    split_ifs at hd with hb
    · cases bs with
      | nil => exact absurd hd (by simp)
      | cons c r => exact chainWF_dropWhile h.2.2 hd
    · obtain ⟨h1, h2⟩ := List.cons.inj hd
      subst h1
      subst h2
      exact h

theorem posFits_getPos {blocks : List ArenaBlock} (h : arenaChainWF blocks) :
    posFits blocks (arenaGetPos blocks) = true := by
  cases blocks with
  | nil => unfold arenaChainWF at h; exact h.elim
  | cons b rest =>
    have hok := chainWF_head_ok h
    have h1 := hok.1
    have h2 := hok.2.1
    unfold posFits arenaGetPos
    rw [List.dropWhile_cons, if_neg (by simp only [decide_eq_true_eq]; omega)]
    simp only [decide_eq_true_eq]
    omega

theorem dropWhile_head_lt :
    ∀ {blocks : List ArenaBlock} {p : Nat} {cur : ArenaBlock}
      {rest : List ArenaBlock},
      blocks.dropWhile (fun b => decide (b.basePos ≥ p)) = cur :: rest →
      cur.basePos < p
  | [], _, _, _, hd => by simp at hd
  | b :: bs, p, cur, rest, hd => by
    rw [List.dropWhile_cons] at hd
    split_ifs at hd with hb
    · exact dropWhile_head_lt hd
    · obtain ⟨h1, _⟩ := List.cons.inj hd
      simp only [decide_eq_true_eq] at hb
      subst h1
      omega

theorem posFits_elim {blocks : List ArenaBlock} {p : Nat}
    (h : posFits blocks p = true) :
    ∃ cur rest, blocks.dropWhile (fun b => decide (b.basePos ≥ p)) = cur :: rest ∧
      cur.basePos < p ∧ p - cur.basePos ≤ cur.committed := by
  unfold posFits at h
  cases hd : blocks.dropWhile (fun b => decide (b.basePos ≥ p)) with
  | nil => rw [hd] at h; simp at h
  | cons cur rest =>
    rw [hd] at h
    simp only [decide_eq_true_eq] at h
    exact ⟨cur, rest, rfl, dropWhile_head_lt hd, h⟩

theorem dropWhile_le_of_le {p t : Nat} (hpt : p ≤ t) :
    ∀ (blocks : List ArenaBlock),
      blocks.dropWhile (fun b => decide (b.basePos ≥ p)) =
      (blocks.dropWhile (fun b => decide (b.basePos ≥ t))).dropWhile
        (fun b => decide (b.basePos ≥ p))
  | [] => rfl
  | b :: bs => by
    by_cases hbt : b.basePos ≥ t
    · rw [List.dropWhile_cons, if_pos (by simp only [decide_eq_true_eq]; omega)]
      conv_rhs => rw [List.dropWhile_cons]
      rw [if_pos (by simpa using hbt)]
      exact dropWhile_le_of_le hpt bs
    · conv_rhs => rw [List.dropWhile_cons]
      rw [if_neg (by simpa using hbt)]

theorem posFits_replace_head {cur cur' : ArenaBlock} {rest : List ArenaBlock}
    {p : Nat} (h : posFits (cur :: rest) p = true)
    (hbase : cur'.basePos = cur.basePos)
    (hcom : cur.committed ≤ cur'.committed) : posFits (cur' :: rest) p = true := by
  unfold posFits at h ⊢
  rw [List.dropWhile_cons] at h
  rw [List.dropWhile_cons]
  by_cases hb : cur.basePos ≥ p
  · rw [if_pos (by simpa using hb)] at h
    rw [if_pos (by simp only [decide_eq_true_eq, hbase]; exact hb)]
    exact h
  · rw [if_neg (by simpa using hb)] at h
    rw [if_neg (by simp only [decide_eq_true_eq, hbase]; exact hb)]
    simp only [decide_eq_true_eq] at h ⊢
    omega

theorem posFits_extend {b cur : ArenaBlock} {rest : List ArenaBlock} {p : Nat}
    (h : posFits (cur :: rest) p = true)
    (hbase : cur.basePos + cur.reserved ≤ b.basePos)
    (hcr : cur.committed ≤ cur.reserved) : posFits (b :: cur :: rest) p = true := by
  have hple : p ≤ b.basePos := by
    unfold posFits at h
    rw [List.dropWhile_cons] at h
    by_cases hb : cur.basePos ≥ p
    · omega
    · rw [if_neg (by simpa using hb)] at h
      simp only [decide_eq_true_eq] at h
      omega
  unfold posFits at h ⊢
  rw [List.dropWhile_cons, if_pos (by simp only [decide_eq_true_eq]; omega)]
  exact h

/-- The block `arenaPush` chains in front of the current one is
well-formed, given that the commit call succeeded (`ic ≤ nrs`) and the
initial commit covers the header. -/
theorem pushGo_chain_step {cur : ArenaBlock} {rest : List ArenaBlock}
    (hwf : arenaChainWF (cur :: rest)) (hcs : 0 < cur.commitSize)
    {ic nrs : Nat} (hic : ARENA_HEADER_SIZE ≤ ic) (hicr : ic ≤ nrs) :
    arenaChainWF
      ({ flags := cur.flags, commitSize := cur.commitSize,
         reserveSize := nrs, basePos := cur.basePos + cur.reserved,
         pos := ARENA_HEADER_SIZE, committed := ic,
         reserved := nrs } :: cur :: rest) :=
  chainWF_extend hwf
    ⟨by show (0 : Nat) < ARENA_HEADER_SIZE; decide, hic, hicr, hic, hcs⟩ rfl


theorem pushGo_chain_finish {size align : Nat} {cur : ArenaBlock}
    {rest : List ArenaBlock} {or2 : List Bool} {ic nrs : Nat}
    (hwf : arenaChainWF (cur :: rest)) (hcs : 0 < cur.commitSize)
    (hpc : cur.pos ≤ cur.committed) (hcr : cur.committed ≤ cur.reserved)
    (hic : ARENA_HEADER_SIZE ≤ ic) (hicr : ic ≤ nrs)
    (IH : ∀ blocks : List ArenaBlock, arenaChainWF blocks →
      arenaChainWF (arenaPushGo blocks size align or2).1 ∧
      arenaGetPos blocks ≤ arenaGetPos (arenaPushGo blocks size align or2).1 ∧
      (∀ p, posFits blocks p = true →
        posFits (arenaPushGo blocks size align or2).1 p = true)) :
    arenaChainWF (arenaPushGo
        ({ flags := cur.flags, commitSize := cur.commitSize, reserveSize := nrs,
           basePos := cur.basePos + cur.reserved, pos := ARENA_HEADER_SIZE,
           committed := ic, reserved := nrs } :: cur :: rest) size align or2).1 ∧
    arenaGetPos (cur :: rest) ≤ arenaGetPos (arenaPushGo
        ({ flags := cur.flags, commitSize := cur.commitSize, reserveSize := nrs,
           basePos := cur.basePos + cur.reserved, pos := ARENA_HEADER_SIZE,
           committed := ic, reserved := nrs } :: cur :: rest) size align or2).1 ∧
    (∀ p, posFits (cur :: rest) p = true →
      posFits (arenaPushGo
        ({ flags := cur.flags, commitSize := cur.commitSize, reserveSize := nrs,
           basePos := cur.basePos + cur.reserved, pos := ARENA_HEADER_SIZE,
           committed := ic, reserved := nrs } :: cur :: rest) size align or2).1
        p = true) := by
  obtain ⟨h1', h2', h3'⟩ := IH _ (pushGo_chain_step hwf hcs hic hicr)
  refine ⟨h1', Nat.le_trans ?_ h2', fun p hp => h3' p (posFits_extend hp ?_ hcr)⟩
  · show cur.basePos + cur.pos ≤ cur.basePos + cur.reserved + ARENA_HEADER_SIZE
    omega
  · show cur.basePos + cur.reserved ≤ cur.basePos + cur.reserved
    exact Nat.le_refl _

set_option maxHeartbeats 1600000 in
/-- Any `arenaPush` body call preserves the chain invariant, never moves
the global position backwards, and keeps every safely poppable position
safely poppable. -/
theorem pushGo_inv (size align : Nat) (hal : 0 < align) :
    ∀ (oracle : List Bool) (blocks : List ArenaBlock), arenaChainWF blocks →
      arenaChainWF (arenaPushGo blocks size align oracle).1 ∧
      arenaGetPos blocks ≤ arenaGetPos (arenaPushGo blocks size align oracle).1 ∧
      (∀ p, posFits blocks p = true →
        posFits (arenaPushGo blocks size align oracle).1 p = true) := by
  suffices H : ∀ (n : Nat) (oracle : List Bool), oracle.length = n →
      ∀ blocks : List ArenaBlock, arenaChainWF blocks →
      arenaChainWF (arenaPushGo blocks size align oracle).1 ∧
      arenaGetPos blocks ≤ arenaGetPos (arenaPushGo blocks size align oracle).1 ∧
      (∀ p, posFits blocks p = true →
        posFits (arenaPushGo blocks size align oracle).1 p = true) by
    intro oracle
    exact H oracle.length oracle rfl
  intro n
  induction n using Nat.strong_induction_on with
  | _ n ih =>
    intro oracle hn blocks hwf
    cases blocks with
    | nil => unfold arenaChainWF at hwf; exact hwf.elim
    | cons cur rest =>
      obtain ⟨hpos0, hpc, hcr, hhc, hcs⟩ := chainWF_head_ok hwf
      have hge := alignPow2_ge cur.pos hal
      have hge2 := alignPow2_ge (alignPow2 cur.pos align + size) hcs
      have hgeA := alignPow2_ge (size + ARENA_HEADER_SIZE) hcs
      have hgeB := alignPow2_ge (ARENA_HEADER_SIZE + size) hcs
      cases oracle with
      | nil =>
        unfold arenaPushGo
        dsimp only
        split_ifs with h1 h2 h3
        · exact ⟨hwf, Nat.le_refl _, fun p hp => hp⟩
        · exact ⟨hwf, Nat.le_refl _, fun p hp => hp⟩
        · exact ⟨hwf, Nat.le_refl _, fun p hp => hp⟩
        · have hb' : blockOk { cur with pos := alignPow2 cur.pos align + size } := by
            unfold blockOk
            dsimp only
            omega
          refine ⟨chainWF_replace_head hwf hb' rfl, ?_, ?_⟩
          · show cur.basePos + cur.pos ≤
              cur.basePos + (alignPow2 cur.pos align + size)
            omega
          · exact fun p hp => posFits_replace_head hp rfl (Nat.le_refl _)
      | cons o1 or1 =>
        cases or1 with
        | nil =>
          unfold arenaPushGo
          dsimp only
          split_ifs with h1 h2 h3 h4 h5 h6
          · exact ⟨hwf, Nat.le_refl _, fun p hp => hp⟩
          · exact ⟨hwf, Nat.le_refl _, fun p hp => hp⟩
          · exact ⟨hwf, Nat.le_refl _, fun p hp => hp⟩
          · exact ⟨hwf, Nat.le_refl _, fun p hp => hp⟩
          · -- in-block commit; commit target clamped to the reservation
            have hb' : blockOk { cur with
                                 committed := cur.reserved,
                                 pos := alignPow2 cur.pos align + size } := by
              unfold blockOk
              dsimp only
              omega
            refine ⟨chainWF_replace_head hwf hb' rfl, ?_, ?_⟩
            · show cur.basePos + cur.pos ≤
                cur.basePos + (alignPow2 cur.pos align + size)
              omega
            · exact fun p hp => posFits_replace_head hp rfl (by dsimp only; omega)
          · -- in-block commit, unclamped
            have hb' : blockOk { cur with
                                 committed :=
                                   alignPow2 (alignPow2 cur.pos align + size)
                                     cur.commitSize,
                                 pos := alignPow2 cur.pos align + size } := by
              unfold blockOk
              dsimp only
              omega
            refine ⟨chainWF_replace_head hwf hb' rfl, ?_, ?_⟩
            · show cur.basePos + cur.pos ≤
                cur.basePos + (alignPow2 cur.pos align + size)
              omega
            · exact fun p hp => posFits_replace_head hp rfl (by dsimp only; omega)
          · -- fits without further commit
            have hb' : blockOk { cur with pos := alignPow2 cur.pos align + size } := by
              unfold blockOk
              dsimp only
              omega
            refine ⟨chainWF_replace_head hwf hb' rfl, ?_, ?_⟩
            · show cur.basePos + cur.pos ≤
                cur.basePos + (alignPow2 cur.pos align + size)
              omega
            · exact fun p hp => posFits_replace_head hp rfl (Nat.le_refl _)
        | cons o2 or2 =>
          have hlt : or2.length < n := by
            simp only [List.length_cons] at hn
            omega
          unfold arenaPushGo
          dsimp only
          split_ifs with h1 h2 h3 h4 h5 h6 h7 h8 h9 h10 h11 h12 h13
          all_goals try exact ⟨hwf, Nat.le_refl _, fun p hp => hp⟩
          · -- chain: huge reservation, aligned initial commit
            refine pushGo_chain_finish hwf hcs hpc hcr (by omega) ?_
              (fun blocks hb => ih or2.length hlt or2 rfl blocks hb)
            simp at h6
            exact h6.2
          · -- chain: default reservation, aligned initial commit
            refine pushGo_chain_finish hwf hcs hpc hcr (by omega) ?_
              (fun blocks hb => ih or2.length hlt or2 rfl blocks hb)
            simp at h7
            exact h7.2
          · -- chain: huge reservation, default initial commit
            refine pushGo_chain_finish hwf hcs hpc hcr (by omega) ?_
              (fun blocks hb => ih or2.length hlt or2 rfl blocks hb)
            simp at h9
            exact h9.2
          · -- chain: default reservation, default initial commit
            refine pushGo_chain_finish hwf hcs hpc hcr (by omega) ?_
              (fun blocks hb => ih or2.length hlt or2 rfl blocks hb)
            simp at h10
            exact h10.2
          · -- in-block commit; commit target clamped to the reservation
            have hb' : blockOk { cur with
                                 committed := cur.reserved,
                                 pos := alignPow2 cur.pos align + size } := by
              unfold blockOk
              dsimp only
              omega
            refine ⟨chainWF_replace_head hwf hb' rfl, ?_, ?_⟩
            · show cur.basePos + cur.pos ≤
                cur.basePos + (alignPow2 cur.pos align + size)
              omega
            · exact fun p hp => posFits_replace_head hp rfl (by dsimp only; omega)
          · -- in-block commit, unclamped
            have hb' : blockOk { cur with
                                 committed :=
                                   alignPow2 (alignPow2 cur.pos align + size)
                                     cur.commitSize,
                                 pos := alignPow2 cur.pos align + size } := by
              unfold blockOk
              dsimp only
              omega
            refine ⟨chainWF_replace_head hwf hb' rfl, ?_, ?_⟩
            · show cur.basePos + cur.pos ≤
                cur.basePos + (alignPow2 cur.pos align + size)
              omega
            · exact fun p hp => posFits_replace_head hp rfl (by dsimp only; omega)
          · -- fits without further commit
            have hb' : blockOk { cur with pos := alignPow2 cur.pos align + size } := by
              unfold blockOk
              dsimp only
              omega
            refine ⟨chainWF_replace_head hwf hb' rfl, ?_, ?_⟩
            · show cur.basePos + cur.pos ≤
                cur.basePos + (alignPow2 cur.pos align + size)
              omega
            · exact fun p hp => posFits_replace_head hp rfl (Nat.le_refl _)

/-- `arenaPopTo` to a safely poppable target restores the invariant, makes
the global position exactly the (clamped) target, and keeps every safely
poppable position at or below the target safely poppable. -/
theorem popTo_inv {blocks : List ArenaBlock} {target : Nat}
    (hwf : arenaChainWF blocks)
    (hfit : posFits blocks
      (if target < ARENA_HEADER_SIZE then ARENA_HEADER_SIZE else target) = true) :
    arenaChainWF (arenaPopTo blocks target) ∧
    arenaGetPos (arenaPopTo blocks target) =
      (if target < ARENA_HEADER_SIZE then ARENA_HEADER_SIZE else target) ∧
    (∀ q, q ≤ (if target < ARENA_HEADER_SIZE then ARENA_HEADER_SIZE else target) →
      posFits blocks q = true → posFits (arenaPopTo blocks target) q = true) := by
  obtain ⟨cur, rest, hd, hlt, hcom⟩ := posFits_elim hfit
  have hwfc := chainWF_dropWhile hwf hd
  obtain ⟨hpos0, hpc, hcr, hhc, hcs⟩ := chainWF_head_ok hwfc
  unfold arenaPopTo
  dsimp only
  rw [hd]
  refine ⟨?_, ?_, ?_⟩
  · refine chainWF_replace_head hwfc ?_ rfl
    unfold blockOk
    dsimp only
    omega
  · show cur.basePos +
      ((if target < ARENA_HEADER_SIZE then ARENA_HEADER_SIZE else target)
        - cur.basePos) =
      (if target < ARENA_HEADER_SIZE then ARENA_HEADER_SIZE else target)
    omega
  · intro q hq hfq
    obtain ⟨c2, r2, hd2, hlt2, hcom2⟩ := posFits_elim hfq
    have hsplit := dropWhile_le_of_le hq blocks
    rw [hd] at hsplit
    unfold posFits
    rw [List.dropWhile_cons]
    by_cases hbq : cur.basePos ≥ q
    · rw [if_pos (by simp only [decide_eq_true_eq]; exact hbq)]
      have hrest : rest.dropWhile (fun b => decide (b.basePos ≥ q)) = c2 :: r2 := by
        rw [List.dropWhile_cons,
          if_pos (by simp only [decide_eq_true_eq]; exact hbq)] at hsplit
        rw [← hsplit]
        exact hd2
      rw [hrest]
      simp only [decide_eq_true_eq]
      exact hcom2
    · rw [if_neg (by simp only [decide_eq_true_eq]; exact hbq)]
      rw [List.dropWhile_cons,
        if_neg (by simp only [decide_eq_true_eq]; exact hbq)] at hsplit
      rw [hsplit] at hd2
      obtain ⟨he1, _⟩ := List.cons.inj hd2
      simp only [decide_eq_true_eq]
      show q - cur.basePos ≤ cur.committed
      rw [he1]
      exact hcom2

/-- `arenaPush` on a non-null arena (including the `size == 0` early
return) preserves the chain invariant, never moves the global position
backwards, and keeps safely poppable positions safely poppable. -/
theorem pushSt_inv (blocks : List ArenaBlock) (size align : Nat)
    (oracle : List Bool) (hal : 0 < align) (hwf : arenaChainWF blocks) :
    arenaChainWF (arenaPushSt blocks size align oracle).1 ∧
    arenaGetPos blocks ≤ arenaGetPos (arenaPushSt blocks size align oracle).1 ∧
    (∀ p, posFits blocks p = true →
      posFits (arenaPushSt blocks size align oracle).1 p = true) := by
  unfold arenaPushSt
  split_ifs with h0
  · exact ⟨hwf, Nat.le_refl _, fun p hp => hp⟩
  · exact pushGo_inv size align hal oracle blocks hwf

/-- A successful `arenaCreate` yields a well-formed one-block chain with
the global position at the header size. -/
theorem create_chainWF {pParams : Option ArenaParams} {oracle : List Bool}
    {blocks : List ArenaBlock}
    (h : arenaCreate pParams oracle = some blocks) :
    arenaChainWF blocks ∧ arenaGetPos blocks = ARENA_HEADER_SIZE := by
  cases pParams with
  | none =>
    cases oracle with
    | nil => exact Option.noConfusion h
    | cons r o1 =>
      cases o1 with
      | nil =>
        unfold arenaCreate at h
        dsimp only at h
        split_ifs at h
      | cons c o2 =>
        unfold arenaCreate at h
        dsimp only at h
        split_ifs at h <;>
          first
          | exact Option.noConfusion h
          | (obtain rfl := (Option.some.inj h).symm; decide)
  | some p =>
    cases oracle with
    | nil => exact Option.noConfusion h
    | cons r o1 =>
      cases o1 with
      | nil =>
        unfold arenaCreate at h
        dsimp only at h
        split_ifs at h
      | cons c o2 =>
        unfold arenaCreate at h
        dsimp only at h
        split_ifs at h
        all_goals
          (obtain rfl := (Option.some.inj h).symm
           simp only [Bool.not_eq_true, Bool.not_eq_false', Bool.and_eq_true,
             decide_eq_true_eq] at *
           simp only [arenaChainWF, blockOk, arenaGetPos]
           simp only [ARENA_HEADER_SIZE, ARENA_DEFAULT_COMMIT,
             ARENA_DEFAULT_RESERVE] at *
           exact ⟨⟨by omega, trivial⟩, trivial⟩)

/-!
## Reachable arena states

`ArenaReach blocks obs` says the chain `blocks` is reachable from a
successful `arenaCreate` by `arenaPush` calls (power-of-two alignments,
as the source's `alignPow2` assert demands — the model only needs
positivity) and by `arenaPopTo` calls whose (clamped) target is a
still-meaningful previously observed position: `obs` records the
positions `arenaGetPos` has returned, and a `popTo` invalidates the
observations above its target, exactly as `arenaTempBegin`/`arenaTempEnd`
nest.  `arenaPop` and `arenaClear` are `arenaPopTo` calls (`arenaClear`'s
clamped target `ARENA_HEADER_SIZE` is always in `obs`, by
`reach_inv`).  -/
inductive ArenaReach : List ArenaBlock → List Nat → Prop where
  | create {pParams : Option ArenaParams} {oracle : List Bool}
      {blocks : List ArenaBlock} :
      arenaCreate pParams oracle = some blocks →
      ArenaReach blocks [arenaGetPos blocks]
  | push {blocks : List ArenaBlock} {obs : List Nat}
      (size align : Nat) (oracle : List Bool) :
      ArenaReach blocks obs → 0 < align →
      ArenaReach (arenaPushSt blocks size align oracle).1
        (arenaGetPos (arenaPushSt blocks size align oracle).1 :: obs)
  | popTo {blocks : List ArenaBlock} {obs : List Nat} (target : Nat) :
      ArenaReach blocks obs →
      (if target < ARENA_HEADER_SIZE then ARENA_HEADER_SIZE else target) ∈ obs →
      ArenaReach (arenaPopTo blocks target)
        (obs.filter (fun q => decide (q ≤
          (if target < ARENA_HEADER_SIZE then ARENA_HEADER_SIZE else target))))

/-- Every reachable arena chain is well-formed; the header-size position
and the current position are among the live observations, and every live
observed position is at or past the header and safely poppable. -/
theorem reach_inv {blocks : List ArenaBlock} {obs : List Nat}
    (h : ArenaReach blocks obs) :
    arenaChainWF blocks ∧ ARENA_HEADER_SIZE ∈ obs ∧ arenaGetPos blocks ∈ obs ∧
    ∀ p ∈ obs, ARENA_HEADER_SIZE ≤ p ∧ posFits blocks p = true := by
  induction h with
  | create hc =>
    obtain ⟨hwf, hgp⟩ := create_chainWF hc
    refine ⟨hwf, by rw [hgp]; exact List.mem_singleton_self _,
      List.mem_singleton_self _, ?_⟩
    intro p hp
    rw [List.mem_singleton] at hp
    subst hp
    exact ⟨by rw [hgp], posFits_getPos hwf⟩
  | push size align oracle hr hal ih =>
    obtain ⟨hwf, h128, hgp, hobs⟩ := ih
    obtain ⟨hwf', hmono, hfit⟩ := pushSt_inv _ size align oracle hal hwf
    refine ⟨hwf', List.mem_cons_of_mem _ h128, List.mem_cons_self _ _, ?_⟩
    intro p hp
    rcases List.mem_cons.mp hp with rfl | hp'
    · exact ⟨Nat.le_trans (hobs _ hgp).1 hmono, posFits_getPos hwf'⟩
    · exact ⟨(hobs p hp').1, hfit p (hobs p hp').2⟩
  | popTo target hr hmem ih =>
    obtain ⟨hwf, h128, hgp, hobs⟩ := ih
    have ht := hobs _ hmem
    obtain ⟨hwf', hgp', hfit'⟩ := popTo_inv hwf ht.2
    refine ⟨hwf', ?_, ?_, ?_⟩
    · exact List.mem_filter.mpr ⟨h128, by simp only [decide_eq_true_eq]; exact ht.1⟩
    · rw [hgp']
      exact List.mem_filter.mpr ⟨hmem, by simp⟩
    · intro p hp
      obtain ⟨hpm, hple⟩ := List.mem_filter.mp hp
      simp only [decide_eq_true_eq] at hple
      exact ⟨(hobs p hpm).1, hfit' p hple (hobs p hpm).2⟩

theorem chainWF_last_base :
    ∀ {blocks : List ArenaBlock} {p : Nat}, arenaChainWF blocks → 0 < p →
      ∃ cur rest, blocks.dropWhile (fun b => decide (b.basePos ≥ p)) = cur :: rest
  | [], _, h, _ => by unfold arenaChainWF at h; exact h.elim
  | [b], p, h, hp => by
    by_cases hb : b.basePos ≥ p
    · have h0 : b.basePos = 0 := h.2
      exact absurd hb (by omega)
    · rw [List.dropWhile_cons, if_neg (by simpa using hb)]
      exact ⟨b, [], rfl⟩
  | b :: c :: rest, p, h, hp => by
    by_cases hb : b.basePos ≥ p
    · rw [List.dropWhile_cons, if_pos (by simpa using hb)]
      exact chainWF_last_base h.2.2 hp
    · rw [List.dropWhile_cons, if_neg (by simpa using hb)]
      exact ⟨b, c :: rest, rfl⟩

/-- On a well-formed chain, `arenaPopTo` to any target at or past the
header size puts the global position exactly at the target (the walk can
never run off the end: the first-created block sits at `basePos = 0`). -/
theorem popTo_getPos {blocks : List ArenaBlock} {target : Nat}
    (hwf : arenaChainWF blocks) (ht : ARENA_HEADER_SIZE ≤ target) :
    arenaGetPos (arenaPopTo blocks target) = target := by
  have hp : 0 < target := by simp only [ARENA_HEADER_SIZE] at ht; omega
  obtain ⟨cur, rest, hd⟩ := chainWF_last_base hwf hp
  have hlt := dropWhile_head_lt hd
  unfold arenaPopTo
  dsimp only
  rw [if_neg (by omega), hd]
  show cur.basePos + (target - cur.basePos) = target
  omega

/-!
## Claim C6 — position monotonicity and reversibility
-/

/-- C6: on every reachable arena, (a) a push — any size, any power-of-two
alignment (the model needs only positivity), any platform outcome,
chaining included — never decreases `arenaGetPos`; (b) every observed
position is at or past `ARENA_HEADER_SIZE`; and (c) `arenaPopTo` to any
position at or past `ARENA_HEADER_SIZE` — in particular to any position
`arenaGetPos` ever returned — makes `arenaGetPos` return exactly that
position. -/
theorem c6_position_monotone_reversible {blocks : List ArenaBlock}
    {obs : List Nat} (h : ArenaReach blocks obs) :
    (∀ (size align : Nat) (oracle : List Bool), 0 < align →
      arenaGetPos blocks ≤ arenaGetPos (arenaPushSt blocks size align oracle).1) ∧
    (∀ p ∈ obs, ARENA_HEADER_SIZE ≤ p) ∧
    (∀ p, ARENA_HEADER_SIZE ≤ p → arenaGetPos (arenaPopTo blocks p) = p) := by
  obtain ⟨hwf, h128, hgp, hobs⟩ := reach_inv h
  refine ⟨?_, fun p hp => (hobs p hp).1, fun p hp => popTo_getPos hwf hp⟩
  intro size align oracle hal
  exact (pushSt_inv _ size align oracle hal hwf).2.1

def c6Arena : List ArenaBlock := [⟨0, 65536, 67108864, 0, 128, 65536, 67108864⟩]

/-- C6 witness: on the arena fresh from `arenaCreate` with default
parameters, popping to the previously observed position 128 — and to any
position past the header, such as 200 — restores it exactly. -/
theorem c6_position_monotone_reversible_witness :
    arenaGetPos (arenaPopTo c6Arena 200) = 200 :=
  (c6_position_monotone_reversible
    (ArenaReach.create (rfl : arenaCreate none [true, true] = some c6Arena))).2.2
    200 (by decide)

/-!
## Claim C7 — the arena block invariant

The counterexample: `arenaCreate` with a 256-byte reservation and
64-byte commit granularity, then pushes of 96, 32 and 100 bytes (the
third chains a second block), `popTo 256` (releasing the second block),
a push of 1 byte (chaining a fresh second block at the same base offset
but with only 192 bytes committed), and `popTo 484`.  Both pop targets
were previously returned by `arenaGetPos` (after the second and third
push), yet the final state has `pos = 228 > committed = 192` in its head
block: the claim's restriction to previously observed positions does not
save the invariant, because a pop below an observed position makes that
observation stale — the block it pointed into is released, and a later
chain rebuilds a block at the same base with a smaller commit.
-/

def c7s0 : List ArenaBlock := [⟨0, 64, 256, 0, 128, 128, 256⟩]

def c7s1 : List ArenaBlock := (arenaPushSt c7s0 96 8 [true]).1

def c7s2 : List ArenaBlock := (arenaPushSt c7s1 32 8 []).1

def c7s3 : List ArenaBlock := (arenaPushSt c7s2 100 8 [true, true]).1

def c7s4 : List ArenaBlock := arenaPopTo c7s3 256

def c7s5 : List ArenaBlock := (arenaPushSt c7s4 1 8 [true, true]).1

def c7s6 : List ArenaBlock := arenaPopTo c7s5 484

/-- C7, counterexample.  Every step of the trace is a create, a push, or
a `popTo` whose target was previously returned by `arenaGetPos`; all
pushes succeed; yet after the last `popTo` the head block violates
`pos ≤ committed`. -/
theorem c7_block_invariant_counterexample :
    arenaCreate (some ⟨0, 256, 64, none⟩) [true, true] = some c7s0 ∧
    arenaGetPos c7s2 = 256 ∧
    arenaGetPos c7s3 = 484 ∧
    (arenaPushSt c7s0 96 8 [true]).2 = some 128 ∧
    (arenaPushSt c7s1 32 8 []).2 = some 224 ∧
    (arenaPushSt c7s2 100 8 [true, true]).2 = some 384 ∧
    (arenaPushSt c7s4 1 8 [true, true]).2 = some 384 ∧
    c7s6 = [⟨0, 64, 256, 256, 228, 192, 256⟩, ⟨0, 64, 256, 0, 256, 256, 256⟩] ∧
    ¬ arenaChainWF c7s6 := by
  refine ⟨rfl, rfl, rfl, rfl, rfl, rfl, rfl, rfl, by decide⟩

/-- The base-offset chaining part of the spec's invariant. -/
def arenaBaseChained : List ArenaBlock → Prop
  | [] => True
  | [b] => b.basePos = 0
  | b :: c :: rest => b.basePos = c.basePos + c.reserved ∧
      arenaBaseChained (c :: rest)

theorem chainWF_elim : ∀ {blocks : List ArenaBlock}, arenaChainWF blocks →
    (∀ b ∈ blocks, blockOk b) ∧ arenaBaseChained blocks
  | [], h => by unfold arenaChainWF at h; exact h.elim
  | [b], h => by
    refine ⟨?_, h.2⟩
    intro x hx
    rw [List.mem_singleton] at hx
    subst hx
    exact h.1
  | b :: c :: rest, h => by
    obtain ⟨hok, hbase, htail⟩ := h
    obtain ⟨hall, hchain⟩ := chainWF_elim htail
    refine ⟨?_, hbase, hchain⟩
    intro x hx
    rcases List.mem_cons.mp hx with rfl | hx'
    · exact hok
    · exact hall x hx'

/-- C7 (amended): the block invariant `pos ≤ committed ≤ reserved` plus
base-offset chaining holds after create and after every push and every
`popTo` (hence every pop and clear) whose clamped target is a previously
observed position that is still meaningful — no intervening `popTo`
went below it.  This is the discipline `ArenaReach` enforces, matching
the `arenaTempBegin`/`arenaTempEnd` nesting; the counterexample shows the
invariant is not maintained under the claim's weaker restriction. -/
theorem c7_block_invariant_amended {blocks : List ArenaBlock} {obs : List Nat}
    (h : ArenaReach blocks obs) :
    (∀ b ∈ blocks, b.pos ≤ b.committed ∧ b.committed ≤ b.reserved) ∧
    arenaBaseChained blocks := by
  obtain ⟨hwf, _, _, _⟩ := reach_inv h
  obtain ⟨hall, hchain⟩ := chainWF_elim hwf
  exact ⟨fun b hb => ⟨(hall b hb).2.1, (hall b hb).2.2.1⟩, hchain⟩

def c7W : List ArenaBlock := (arenaPushSt c7s0 200 8 [true, true]).1

/-- C7 witness: the amended invariant applied to a two-block chain
reached by a create and one chaining push. -/
theorem c7_block_invariant_amended_witness : arenaBaseChained c7W :=
  (c7_block_invariant_amended
    (ArenaReach.push 200 8 [true, true]
      (ArenaReach.create
        (rfl : arenaCreate (some ⟨0, 256, 64, none⟩) [true, true] = some c7s0))
      (by decide))).2

/-!
## Claim C8 — the typed allocators fault on a failed push
-/

def c8NoChain : List ArenaBlock := [⟨1, 64, 256, 0, 128, 128, 256⟩]

/-- C8, the code bug.  `arenaPush` itself is a safe no-op on a null arena
(third conjunct), but the typed helpers `arenaPushStruct` and
`arenaPushArray` pass the pushed pointer straight to `memset` with no
null check: with a null arena, or when the underlying push fails (here:
a 400-byte array push on an exhausted `ArenaFlag_NoChain` arena), they
fault instead of returning null. -/
theorem c8_typed_push_fault :
    arenaPushStruct none 8 8 [] = .error () ∧
    arenaPushArray (some c8NoChain) 4 100 4 [] = .error () ∧
    arenaPush none 8 8 [] = (none, none) := by
  refine ⟨rfl, rfl, rfl⟩

/-!
## Claim C9 — the backing-buffer parameter is never consulted
-/

/-- C9, counterexample.  A create given a non-null `pBackingBuffer` still
calls `platformReserveMemory` — if that reservation fails the create
fails (first conjunct), and on success the result is identical to a
create with no backing buffer (second conjunct): the buffer is never
used. -/
theorem c9_backing_buffer_counterexample :
    arenaCreate (some ⟨0, 256, 64, some 4096⟩) [false] = none ∧
    arenaCreate (some ⟨0, 256, 64, some 4096⟩) [true, true] =
      arenaCreate (some ⟨0, 256, 64, none⟩) [true, true] := by
  exact ⟨rfl, rfl⟩

/-- C9 (amended): `arenaCreate` ignores the `pBackingBuffer` field
entirely — for every parameter block, every buffer value, and every
platform outcome, replacing the field changes nothing.  There is no
bring-your-own-memory mode. -/
theorem c9_backing_buffer_amended (p : ArenaParams) (buf : Option Nat)
    (oracle : List Bool) :
    arenaCreate (some { p with pBackingBuffer := buf }) oracle =
      arenaCreate (some p) oracle := by
  cases p
  rfl
